import Mathlib

/-!
# Verification of the Qscope quantum simulation engine

Shallow embedding of the state-vector simulation and analytics engine of the
qscope backend (`app/services/quantum_simulator.py`,
`app/services/quantum_analytics.py`, `app/routes/quantum.py`).

Amplitudes are modelled exactly in the ring Q[sqrt 2, i]: every matrix entry of
the supported gate catalog (H, X, Y, Z, I) lies in that ring, so the state
reached by the engine after any gate sequence is represented exactly.  The
real/complex value of such an exact amplitude is recovered by the ring
homomorphism into the complex numbers, which is used for the real-valued
metric functions (entropies, coherence, participation).
-/

/-- An element of the ring Q[sqrt 2, i]:
the value (re1 + re2 * sqrt 2) + (im1 + im2 * sqrt 2) * i.
All amplitudes produced by the engine's gate catalog live in this ring. -/
@[ext] structure CQ where
  re1 : ℚ
  re2 : ℚ
  im1 : ℚ
  im2 : ℚ
deriving DecidableEq, Repr

namespace CQ

instance : Zero CQ := ⟨⟨0, 0, 0, 0⟩⟩
instance : One CQ := ⟨⟨1, 0, 0, 0⟩⟩

instance : Add CQ :=
  ⟨fun z w => ⟨z.re1 + w.re1, z.re2 + w.re2, z.im1 + w.im1, z.im2 + w.im2⟩⟩

instance : Neg CQ := ⟨fun z => ⟨-z.re1, -z.re2, -z.im1, -z.im2⟩⟩

/-- Multiplication in Q[sqrt 2, i], using (sqrt 2)^2 = 2 and i^2 = -1. -/
instance : Mul CQ :=
  ⟨fun z w =>
    ⟨z.re1 * w.re1 + 2 * z.re2 * w.re2 - z.im1 * w.im1 - 2 * z.im2 * w.im2,
     z.re1 * w.re2 + z.re2 * w.re1 - z.im1 * w.im2 - z.im2 * w.im1,
     z.re1 * w.im1 + 2 * z.re2 * w.im2 + z.im1 * w.re1 + 2 * z.im2 * w.re2,
     z.re1 * w.im2 + z.re2 * w.im1 + z.im1 * w.re2 + z.im2 * w.re1⟩⟩

@[simp] theorem zero_re1 : (0 : CQ).re1 = 0 := rfl
@[simp] theorem zero_re2 : (0 : CQ).re2 = 0 := rfl
@[simp] theorem zero_im1 : (0 : CQ).im1 = 0 := rfl
@[simp] theorem zero_im2 : (0 : CQ).im2 = 0 := rfl
@[simp] theorem one_re1 : (1 : CQ).re1 = 1 := rfl
@[simp] theorem one_re2 : (1 : CQ).re2 = 0 := rfl
@[simp] theorem one_im1 : (1 : CQ).im1 = 0 := rfl
@[simp] theorem one_im2 : (1 : CQ).im2 = 0 := rfl
@[simp] theorem add_re1 (z w : CQ) : (z + w).re1 = z.re1 + w.re1 := rfl
@[simp] theorem add_re2 (z w : CQ) : (z + w).re2 = z.re2 + w.re2 := rfl
@[simp] theorem add_im1 (z w : CQ) : (z + w).im1 = z.im1 + w.im1 := rfl
@[simp] theorem add_im2 (z w : CQ) : (z + w).im2 = z.im2 + w.im2 := rfl
@[simp] theorem neg_re1 (z : CQ) : (-z).re1 = -z.re1 := rfl
@[simp] theorem neg_re2 (z : CQ) : (-z).re2 = -z.re2 := rfl
@[simp] theorem neg_im1 (z : CQ) : (-z).im1 = -z.im1 := rfl
@[simp] theorem neg_im2 (z : CQ) : (-z).im2 = -z.im2 := rfl
@[simp] theorem mul_re1 (z w : CQ) :
    (z * w).re1 =
      z.re1 * w.re1 + 2 * z.re2 * w.re2 - z.im1 * w.im1 - 2 * z.im2 * w.im2 := rfl
@[simp] theorem mul_re2 (z w : CQ) :
    (z * w).re2 =
      z.re1 * w.re2 + z.re2 * w.re1 - z.im1 * w.im2 - z.im2 * w.im1 := rfl
@[simp] theorem mul_im1 (z w : CQ) :
    (z * w).im1 =
      z.re1 * w.im1 + 2 * z.re2 * w.im2 + z.im1 * w.re1 + 2 * z.im2 * w.re2 := rfl
@[simp] theorem mul_im2 (z w : CQ) :
    (z * w).im2 =
      z.re1 * w.im2 + z.re2 * w.im1 + z.im1 * w.re2 + z.im2 * w.re1 := rfl

instance : CommRing CQ where
  add_assoc z w v := by ext <;> simp <;> ring
  zero_add z := by ext <;> simp
  add_zero z := by ext <;> simp
  add_comm z w := by ext <;> simp <;> ring
  left_distrib z w v := by ext <;> simp <;> ring
  right_distrib z w v := by ext <;> simp <;> ring
  zero_mul z := by ext <;> simp
  mul_zero z := by ext <;> simp
  mul_assoc z w v := by ext <;> simp <;> ring
  one_mul z := by ext <;> simp
  mul_one z := by ext <;> simp
  mul_comm z w := by ext <;> simp <;> ring
  neg_add_cancel z := by ext <;> simp
  nsmul := nsmulRec
  zsmul := zsmulRec

/-- Complex conjugation on Q[sqrt 2, i]. -/
def conj (z : CQ) : CQ := ⟨z.re1, z.re2, -z.im1, -z.im2⟩

@[simp] theorem conj_re1 (z : CQ) : (conj z).re1 = z.re1 := rfl
@[simp] theorem conj_re2 (z : CQ) : (conj z).re2 = z.re2 := rfl
@[simp] theorem conj_im1 (z : CQ) : (conj z).im1 = -z.im1 := rfl
@[simp] theorem conj_im2 (z : CQ) : (conj z).im2 = -z.im2 := rfl

@[simp] theorem conj_zero : conj 0 = 0 := by ext <;> simp
@[simp] theorem conj_one : conj 1 = 1 := by ext <;> simp
@[simp] theorem conj_conj (z : CQ) : conj (conj z) = z := by ext <;> simp
theorem conj_add (z w : CQ) : conj (z + w) = conj z + conj w := by ext <;> simp <;> ring
theorem conj_mul (z w : CQ) : conj (z * w) = conj z * conj w := by ext <;> simp <;> ring
theorem conj_neg (z : CQ) : conj (-z) = -(conj z) := by ext <;> simp

/-- The exact complex value of an element of Q[sqrt 2, i]. -/
noncomputable def toC (z : CQ) : ℂ :=
  ⟨(z.re1 : ℝ) + (z.re2 : ℝ) * Real.sqrt 2, (z.im1 : ℝ) + (z.im2 : ℝ) * Real.sqrt 2⟩

@[simp] theorem toC_re (z : CQ) :
    (toC z).re = (z.re1 : ℝ) + (z.re2 : ℝ) * Real.sqrt 2 := rfl
@[simp] theorem toC_im (z : CQ) :
    (toC z).im = (z.im1 : ℝ) + (z.im2 : ℝ) * Real.sqrt 2 := rfl

theorem sqrt2_mul_self : Real.sqrt 2 * Real.sqrt 2 = 2 :=
  Real.mul_self_sqrt (by norm_num)

@[simp] theorem toC_zero : toC 0 = 0 := by
  apply Complex.ext <;> simp

@[simp] theorem toC_one : toC 1 = 1 := by
  apply Complex.ext <;> simp

theorem toC_add (z w : CQ) : toC (z + w) = toC z + toC w := by
  apply Complex.ext <;> · simp [Complex.add_re, Complex.add_im] <;> push_cast <;> ring

theorem toC_mul (z w : CQ) : toC (z * w) = toC z * toC w := by
  apply Complex.ext
  · simp only [toC_re, toC_im, mul_re1, mul_re2, Complex.mul_re]
    push_cast
    linear_combination (-(z.re2 : ℝ) * w.re2 + z.im2 * w.im2) * sqrt2_mul_self
  · simp only [toC_re, toC_im, mul_im1, mul_im2, Complex.mul_im]
    push_cast
    linear_combination (-(z.re2 : ℝ) * w.im2 - z.im2 * w.re2) * sqrt2_mul_self

theorem toC_conj (z : CQ) : toC (conj z) = (starRingEnd ℂ) (toC z) := by
  apply Complex.ext <;> simp [Complex.conj_re, Complex.conj_im] <;> ring

/-- The bundled ring homomorphism from Q[sqrt 2, i] into the complex numbers. -/
noncomputable def toCHom : CQ →+* ℂ where
  toFun := toC
  map_one' := toC_one
  map_mul' := toC_mul
  map_zero' := toC_zero
  map_add' := toC_add

@[simp] theorem toCHom_apply (z : CQ) : toCHom z = toC z := rfl

/-- The exact real value of the squared modulus of an amplitude. -/
noncomputable def normSqR (z : CQ) : ℝ := Complex.normSq (toC z)

theorem normSqR_nonneg (z : CQ) : 0 ≤ normSqR z := Complex.normSq_nonneg _

theorem toC_mul_conj (z : CQ) : toC (z * conj z) = (normSqR z : ℂ) := by
  rw [toC_mul, toC_conj, Complex.mul_conj, normSqR]

theorem normSqR_eq_re (z : CQ) : normSqR z = (toC (z * conj z)).re := by
  rw [toC_mul_conj]
  simp

end CQ

/-! ## Gate catalog and state evolution

Mirrors `AdvancedQuantumSimulator.gate_matrices` (quantum_simulator.py lines
28-34) and the per-gate evolution performed by `simulate_with_steps` /
`_add_single_gate` (lines 148-175, 216-234): each step builds a single-gate
circuit acting on one qubit and evolves the state vector by it.  Qiskit's
convention is little-endian: qubit q corresponds to bit q of the basis index. -/

/-- A 2 x 2 gate matrix [[a, b], [c, d]] with entries in Q[sqrt 2, i]. -/
@[ext] structure GateMat where
  a : CQ
  b : CQ
  c : CQ
  d : CQ
deriving DecidableEq, Repr

/-- Matrix product of 2 x 2 gate matrices. -/
def GateMat.matMul (m m' : GateMat) : GateMat :=
  ⟨m.a * m'.a + m.b * m'.c, m.a * m'.b + m.b * m'.d,
   m.c * m'.a + m.d * m'.c, m.c * m'.b + m.d * m'.d⟩

/-- The identity gate matrix. -/
def GateMat.idMat : GateMat := ⟨1, 0, 0, 1⟩

/-- sqrt 2 / 2 = 1 / sqrt 2, the Hadamard coefficient, exactly in Q[sqrt 2, i]. -/
def invSqrt2 : CQ := ⟨0, 1/2, 0, 0⟩

/-- The imaginary unit in Q[sqrt 2, i]. -/
def iCQ : CQ := ⟨0, 0, 1, 0⟩

/-- The gate catalog of the engine (`gate_matrices`, lines 28-34):
H = (1/sqrt 2) [[1,1],[1,-1]], X = [[0,1],[1,0]], Y = [[0,-i],[i,0]],
Z = [[1,0],[0,-1]], I = identity.  `_add_single_gate` (lines 216-234)
dispatches on the gate kind string and treats any unknown kind as a no-op
(identity), logging a warning. -/
def gateMatrices (kind : String) : GateMat :=
  if kind = "H" then ⟨invSqrt2, invSqrt2, invSqrt2, -invSqrt2⟩
  else if kind = "X" then ⟨0, 1, 1, 0⟩
  else if kind = "Y" then ⟨0, -iCQ, iCQ, 0⟩
  else if kind = "Z" then ⟨1, 0, 0, -1⟩
  else GateMat.idMat

/-- The state vector of an n-qubit system: 2^n exact complex amplitudes
indexed by basis-state integer, bit q of the index being the value of
qubit q. -/
def QState (n : ℕ) := Fin (2 ^ n) → CQ

instance (n : ℕ) : DecidableEq (QState n) := by
  unfold QState
  infer_instance

/-- Flip bit q of a basis index (the partner index a single-qubit gate on
qubit q mixes with). -/
def flipIdx {n : ℕ} (q : ℕ) (i : Fin (2 ^ n)) : Fin (2 ^ n) :=
  if h : q < n then
    ⟨i.val ^^^ 2 ^ q,
     Nat.xor_lt_two_pow i.isLt (Nat.pow_lt_pow_right (by norm_num) h)⟩
  else i

/-- Apply the 2 x 2 matrix m to qubit q of the state: the full-system
operator is the tensor product of m at position q with identities, i.e.
amplitudes at index pairs differing in bit q are mixed by m.  A qubit index
outside the register leaves the state unchanged (cannot be produced by
`_build_circuit`, which sizes the register to the maximal qubit + 1). -/
def applyGate {n : ℕ} (m : GateMat) (q : ℕ) (ψ : QState n) : QState n :=
  if q < n then
    fun i =>
      if i.val.testBit q then m.c * ψ (flipIdx q i) + m.d * ψ i
      else m.a * ψ i + m.b * ψ (flipIdx q i)
  else ψ

theorem flipIdx_val {n : ℕ} (q : ℕ) (hq : q < n) (i : Fin (2 ^ n)) :
    (flipIdx q i).val = i.val ^^^ 2 ^ q := by
  simp [flipIdx, hq]

theorem flipIdx_flipIdx {n : ℕ} (q : ℕ) (i : Fin (2 ^ n)) :
    flipIdx q (flipIdx q i) = i := by
  by_cases h : q < n
  · apply Fin.ext
    rw [flipIdx_val q h, flipIdx_val q h, Nat.xor_cancel_right]
  · simp [flipIdx, h]

theorem testBit_flipIdx_self {n : ℕ} (q : ℕ) (hq : q < n) (i : Fin (2 ^ n)) :
    (flipIdx q i).val.testBit q = !(i.val.testBit q) := by
  rw [flipIdx_val q hq]
  simp [Nat.testBit_xor, Nat.testBit_two_pow_self]

theorem testBit_flipIdx_ne {n : ℕ} (q q' : ℕ) (hne : q' ≠ q) (i : Fin (2 ^ n)) :
    (flipIdx q i).val.testBit q' = i.val.testBit q' := by
  by_cases h : q < n
  · rw [flipIdx_val q h]
    simp [Nat.testBit_xor, Nat.testBit_two_pow_of_ne (fun hc => hne hc.symm)]
  · simp [flipIdx, h]

theorem applyGate_apply_of_testBit_false {n : ℕ} (m : GateMat) (q : ℕ)
    (hq : q < n) (ψ : QState n) (i : Fin (2 ^ n)) (hb : i.val.testBit q = false) :
    applyGate m q ψ i = m.a * ψ i + m.b * ψ (flipIdx q i) := by
  simp [applyGate, hq, hb]

theorem applyGate_apply_of_testBit_true {n : ℕ} (m : GateMat) (q : ℕ)
    (hq : q < n) (ψ : QState n) (i : Fin (2 ^ n)) (hb : i.val.testBit q = true) :
    applyGate m q ψ i = m.c * ψ (flipIdx q i) + m.d * ψ i := by
  simp [applyGate, hq, hb]

/-- Applying two gates to the same qubit composes their matrices. -/
theorem applyGate_applyGate {n : ℕ} (m m' : GateMat) (q : ℕ) (ψ : QState n) :
    applyGate m q (applyGate m' q ψ) = applyGate (m.matMul m') q ψ := by
  by_cases hq : q < n
  · funext i
    by_cases hb : i.val.testBit q
    · have hfb : (flipIdx q i).val.testBit q = false := by
        rw [testBit_flipIdx_self q hq, hb]
        rfl
      rw [applyGate_apply_of_testBit_true _ _ hq _ _ hb,
        applyGate_apply_of_testBit_true _ _ hq _ _ hb,
        applyGate_apply_of_testBit_true _ _ hq _ _ hb,
        applyGate_apply_of_testBit_false _ _ hq _ _ hfb, flipIdx_flipIdx]
      simp only [GateMat.matMul]
      ring
    · have hb' : i.val.testBit q = false := by simpa using hb
      have hfb : (flipIdx q i).val.testBit q = true := by
        rw [testBit_flipIdx_self q hq, hb']
        rfl
      rw [applyGate_apply_of_testBit_false _ _ hq _ _ hb',
        applyGate_apply_of_testBit_false _ _ hq _ _ hb',
        applyGate_apply_of_testBit_false _ _ hq _ _ hb',
        applyGate_apply_of_testBit_true _ _ hq _ _ hfb, flipIdx_flipIdx]
      simp only [GateMat.matMul]
      ring
  · simp [applyGate, hq]

/-- Applying the identity matrix leaves the state unchanged. -/
theorem applyGate_idMat {n : ℕ} (q : ℕ) (ψ : QState n) :
    applyGate GateMat.idMat q ψ = ψ := by
  by_cases hq : q < n
  · funext i
    by_cases hb : i.val.testBit q
    · rw [applyGate_apply_of_testBit_true _ _ hq _ _ hb]
      simp [GateMat.idMat]
    · rw [applyGate_apply_of_testBit_false _ _ hq _ _ (by simpa using hb)]
      simp [GateMat.idMat]
  · simp [applyGate, hq]

/-! ## Norm preservation

The engine's invariant (spec section 3 / 8): the sum of squared amplitude
moduli is 1 after every gate application, because every matrix in the catalog
is unitary. -/

/-- The exact sum of squared amplitude moduli of a state. -/
def sumNS {n : ℕ} (ψ : QState n) : CQ := ∑ i, ψ i * CQ.conj (ψ i)

/-- A 2 x 2 matrix preserves the squared norm of every amplitude pair it
mixes (this is exactly unitarity, stated on the two mixed amplitudes). -/
def PreservesPairNorm (m : GateMat) : Prop :=
  ∀ a c : CQ,
    (m.a * a + m.b * c) * CQ.conj (m.a * a + m.b * c) +
      (m.c * a + m.d * c) * CQ.conj (m.c * a + m.d * c) =
    a * CQ.conj a + c * CQ.conj c

theorem preservesPairNorm_gateMatrices (kind : String) :
    PreservesPairNorm (gateMatrices kind) := by
  intro a c
  unfold gateMatrices
  split_ifs <;>
    · ext <;>
        simp [GateMat.idMat, invSqrt2, iCQ, CQ.conj] <;> ring

/-- Summing over all basis indices equals summing, over indices with bit q
clear, the contributions of the index and its bit-q partner. -/
theorem sum_pairing {n : ℕ} (q : ℕ) (hq : q < n) (f : Fin (2 ^ n) → CQ) :
    ∑ i, f i =
      ∑ i ∈ Finset.univ.filter (fun i : Fin (2 ^ n) => i.val.testBit q = false),
        (f i + f (flipIdx q i)) := by
  rw [Finset.sum_add_distrib]
  rw [← Finset.sum_filter_add_sum_filter_not Finset.univ
    (fun i : Fin (2 ^ n) => i.val.testBit q = false) f]
  congr 1
  apply Finset.sum_nbij' (fun i => flipIdx q i) (fun i => flipIdx q i)
  · intro a ha
    simp only [Finset.mem_filter, Finset.mem_univ, true_and] at ha ⊢
    rw [testBit_flipIdx_self q hq]
    simp only [Bool.not_eq_false] at ha
    simp [ha]
  · intro a ha
    simp only [Finset.mem_filter, Finset.mem_univ, true_and] at ha ⊢
    rw [testBit_flipIdx_self q hq]
    simp [ha]
  · intro a _
    exact flipIdx_flipIdx q a
  · intro a _
    exact flipIdx_flipIdx q a
  · intro a _
    rw [flipIdx_flipIdx]

/-- A gate whose matrix is pair-norm preserving leaves the total squared
norm of the state unchanged. -/
theorem sumNS_applyGate {n : ℕ} (m : GateMat) (q : ℕ)
    (hm : PreservesPairNorm m) (ψ : QState n) :
    sumNS (applyGate m q ψ) = sumNS ψ := by
  by_cases hq : q < n
  · unfold sumNS
    rw [sum_pairing q hq (fun i => applyGate m q ψ i * CQ.conj (applyGate m q ψ i)),
      sum_pairing q hq (fun i => ψ i * CQ.conj (ψ i))]
    apply Finset.sum_congr rfl
    intro i hi
    simp only [Finset.mem_filter, Finset.mem_univ, true_and] at hi
    have hfb : (flipIdx q i).val.testBit q = true := by
      rw [testBit_flipIdx_self q hq, hi]
      rfl
    rw [applyGate_apply_of_testBit_false _ _ hq _ _ hi,
      applyGate_apply_of_testBit_true _ _ hq _ _ hfb, flipIdx_flipIdx]
    exact hm (ψ i) (ψ (flipIdx q i))
  · simp [applyGate, hq]

/-! ## Partial trace to one- and two-qubit reduced density matrices

Mirrors the use of `partial_trace` in `_calculate_all_bloch_vectors`
(quantum_simulator.py lines 248-282), `_calculate_entanglement` (lines
453-478) and `_calculate_entanglement_metrics` (quantum_analytics.py lines
448-499): for a pure state, the reduced matrix entry at (a, b) is
sum over the traced-out assignments k of psi(kept=a, traced=k) *
conj(psi(kept=b, traced=k)). -/

/-- Bundled ring homomorphism of conjugation on Q[sqrt 2, i]. -/
def CQ.conjHom : CQ →+* CQ where
  toFun := CQ.conj
  map_one' := CQ.conj_one
  map_mul' := CQ.conj_mul
  map_zero' := CQ.conj_zero
  map_add' := CQ.conj_add

@[simp] theorem CQ.conjHom_apply (z : CQ) : CQ.conjHom z = CQ.conj z := rfl

/-- Force bit q of a basis index to the value b (the index ranges over
indices whose bit q is clear). -/
def setIdx {n : ℕ} (q : ℕ) (b : Bool) (i : Fin (2 ^ n)) : Fin (2 ^ n) :=
  if b then flipIdx q i else i

/-- Force bit q1 to p.1 and bit q2 to p.2. -/
def pairIdx {n : ℕ} (q1 q2 : ℕ) (p : Bool × Bool) (i : Fin (2 ^ n)) : Fin (2 ^ n) :=
  setIdx q1 p.1 (setIdx q2 p.2 i)

theorem testBit_setIdx_self {n : ℕ} (q : ℕ) (hq : q < n) (b : Bool)
    (i : Fin (2 ^ n)) (hi : i.val.testBit q = false) :
    (setIdx q b i).val.testBit q = b := by
  cases b <;> simp [setIdx, hi, testBit_flipIdx_self q hq]

theorem testBit_setIdx_ne {n : ℕ} (q q' : ℕ) (hne : q' ≠ q) (b : Bool)
    (i : Fin (2 ^ n)) :
    (setIdx q b i).val.testBit q' = i.val.testBit q' := by
  cases b <;> simp [setIdx, testBit_flipIdx_ne q q' hne]

/-- The single-qubit reduced density matrix of a pure state, indexed by the
basis of the kept qubit. -/
def rhoQubit {n : ℕ} (ψ : QState n) (q : ℕ) : Matrix Bool Bool CQ :=
  Matrix.of fun s t =>
    ∑ i ∈ Finset.univ.filter (fun i : Fin (2 ^ n) => i.val.testBit q = false),
      ψ (setIdx q s i) * CQ.conj (ψ (setIdx q t i))

/-- The two-qubit reduced density matrix of a pure state, indexed by the
basis of the kept qubit pair. -/
def rhoPair {n : ℕ} (ψ : QState n) (q1 q2 : ℕ) :
    Matrix (Bool × Bool) (Bool × Bool) CQ :=
  Matrix.of fun p p' =>
    ∑ i ∈ Finset.univ.filter
        (fun i : Fin (2 ^ n) =>
          i.val.testBit q1 = false ∧ i.val.testBit q2 = false),
      ψ (pairIdx q1 q2 p i) * CQ.conj (ψ (pairIdx q1 q2 p' i))

theorem conj_sum {α : Type} (s : Finset α) (f : α → CQ) :
    CQ.conj (∑ x ∈ s, f x) = ∑ x ∈ s, CQ.conj (f x) :=
  map_sum CQ.conjHom f s

/-- The reduced one-qubit matrix is Hermitian entrywise. -/
theorem rhoQubit_herm {n : ℕ} (ψ : QState n) (q : ℕ) (s t : Bool) :
    CQ.conj (rhoQubit ψ q t s) = rhoQubit ψ q s t := by
  unfold rhoQubit
  simp only [Matrix.of_apply]
  rw [conj_sum]
  apply Finset.sum_congr rfl
  intro i _
  rw [CQ.conj_mul, CQ.conj_conj]
  ring

/-- The reduced two-qubit matrix is Hermitian entrywise. -/
theorem rhoPair_herm {n : ℕ} (ψ : QState n) (q1 q2 : ℕ) (p p' : Bool × Bool) :
    CQ.conj (rhoPair ψ q1 q2 p' p) = rhoPair ψ q1 q2 p p' := by
  unfold rhoPair
  simp only [Matrix.of_apply]
  rw [conj_sum]
  apply Finset.sum_congr rfl
  intro i _
  rw [CQ.conj_mul, CQ.conj_conj]
  ring

/-- Pairing over a flip-invariant index set: the sum splits into pairs
(index, bit-q partner). -/
theorem sum_pairing_filter {n : ℕ} (q : ℕ) (hq : q < n)
    (P : Fin (2 ^ n) → Prop) [DecidablePred P]
    (hP : ∀ i, P (flipIdx q i) ↔ P i) (f : Fin (2 ^ n) → CQ) :
    ∑ i ∈ Finset.univ.filter P, f i =
      ∑ i ∈ Finset.univ.filter (fun i => P i ∧ i.val.testBit q = false),
        (f i + f (flipIdx q i)) := by
  rw [Finset.sum_add_distrib]
  rw [← Finset.sum_filter_add_sum_filter_not (Finset.univ.filter P)
    (fun i : Fin (2 ^ n) => i.val.testBit q = false) f]
  rw [Finset.filter_filter]
  congr 1
  rw [Finset.filter_filter]
  apply Finset.sum_nbij' (fun i => flipIdx q i) (fun i => flipIdx q i)
  · intro a ha
    simp only [Finset.mem_filter, Finset.mem_univ, true_and] at ha ⊢
    obtain ⟨haP, hab⟩ := ha
    simp only [Bool.not_eq_false] at hab
    refine ⟨(hP a).mpr haP, ?_⟩
    rw [testBit_flipIdx_self q hq, hab]
    rfl
  · intro a ha
    simp only [Finset.mem_filter, Finset.mem_univ, true_and] at ha ⊢
    obtain ⟨haP, hab⟩ := ha
    refine ⟨(hP a).mpr haP, ?_⟩
    rw [testBit_flipIdx_self q hq, hab]
    simp
  · intro a _
    exact flipIdx_flipIdx q a
  · intro a _
    exact flipIdx_flipIdx q a
  · intro a _
    rw [flipIdx_flipIdx]

/-- Partition of the full index sum into the four assignments of a qubit
pair over indices with both bits clear. -/
theorem sum_partition_pair {n : ℕ} {q1 q2 : ℕ} (hq1 : q1 < n) (hq2 : q2 < n)
    (hne : q1 ≠ q2) (f : Fin (2 ^ n) → CQ) :
    ∑ i, f i =
      ∑ i ∈ Finset.univ.filter
          (fun i : Fin (2 ^ n) =>
            i.val.testBit q1 = false ∧ i.val.testBit q2 = false),
        ∑ p : Bool × Bool, f (pairIdx q1 q2 p i) := by
  rw [sum_pairing q1 hq1 f]
  rw [sum_pairing_filter q2 hq2
    (fun i : Fin (2 ^ n) => i.val.testBit q1 = false)
    (fun i => by
      show (flipIdx q2 i).val.testBit q1 = false ↔ i.val.testBit q1 = false
      rw [testBit_flipIdx_ne q2 q1 hne]) _]
  apply Finset.sum_congr rfl
  intro i hi
  simp only [Finset.mem_filter, Finset.mem_univ, true_and] at hi
  have e1 : pairIdx q1 q2 (false, false) i = i := by
    simp [pairIdx, setIdx]
  have e2 : pairIdx q1 q2 (false, true) i = flipIdx q2 i := by
    simp [pairIdx, setIdx]
  have e3 : pairIdx q1 q2 (true, false) i = flipIdx q1 i := by
    simp [pairIdx, setIdx]
  have e4 : pairIdx q1 q2 (true, true) i = flipIdx q1 (flipIdx q2 i) := by
    simp [pairIdx, setIdx]
  rw [Fintype.sum_prod_type]
  simp only [Fintype.sum_bool]
  rw [e1, e2, e3, e4]
  ring

/-! ## Separability

The engine's gate catalog contains only single-qubit operations, so every
state it reaches from the ground state is a tensor product of single-qubit
states.  This is the structural fact behind the separability invariant of
spec section 8. -/

/-- The ground state |0...0> (`Statevector.from_label('0' * n)`,
quantum_simulator.py line 127). -/
def groundState (n : ℕ) : QState n := fun i => if i.val = 0 then 1 else 0

/-- A state is separable when it is a tensor product of single-qubit
states: the amplitude at a basis index factors through the bits. -/
def Separable {n : ℕ} (ψ : QState n) : Prop :=
  ∃ u : Fin n → Bool → CQ,
    ∀ i : Fin (2 ^ n), ψ i = ∏ q : Fin n, u q (i.val.testBit q.val)

theorem exists_testBit_of_ne_zero {n : ℕ} (i : Fin (2 ^ n)) (h : i.val ≠ 0) :
    ∃ q : Fin n, i.val.testBit q.val = true := by
  by_contra hc
  push_neg at hc
  apply h
  apply Nat.eq_of_testBit_eq
  intro j
  rw [Nat.zero_testBit]
  by_cases hj : j < n
  · have := hc ⟨j, hj⟩
    simpa using this
  · exact Nat.testBit_lt_two_pow
      (lt_of_lt_of_le i.isLt (Nat.pow_le_pow_right (by norm_num) (le_of_not_lt hj)))

theorem groundState_separable (n : ℕ) : Separable (groundState n) := by
  refine ⟨fun _ b => if b then 0 else 1, ?_⟩
  intro i
  by_cases h : i.val = 0
  · have hb : ∀ q : Fin n, i.val.testBit q.val = false := by
      intro q
      rw [h]
      exact Nat.zero_testBit _
    simp [groundState, h, hb]
  · obtain ⟨q, hq⟩ := exists_testBit_of_ne_zero i h
    rw [groundState]
    simp only [h, if_false]
    rw [eq_comm]
    apply Finset.prod_eq_zero (Finset.mem_univ q)
    rw [hq]
    simp

/-- Splitting off one factor of the tensor-product form. -/
theorem prod_split_one {n : ℕ} (v : Fin n → Bool → CQ) (qF : Fin n)
    (j : Fin (2 ^ n)) :
    (∏ q' : Fin n, v q' (j.val.testBit q'.val)) =
      v qF (j.val.testBit qF.val) *
        ∏ q' ∈ Finset.univ.erase qF, v q' (j.val.testBit q'.val) :=
  (Finset.mul_prod_erase Finset.univ _ (Finset.mem_univ qF)).symm

/-- Applying a single-qubit gate preserves separability. -/
theorem separable_applyGate {n : ℕ} (m : GateMat) (q : ℕ) (ψ : QState n)
    (h : Separable ψ) : Separable (applyGate m q ψ) := by
  by_cases hq : q < n
  · obtain ⟨u, hu⟩ := h
    set qF : Fin n := ⟨q, hq⟩ with hqF
    refine ⟨Function.update u qF
      (fun b =>
        if b then m.c * u qF false + m.d * u qF true
        else m.a * u qF false + m.b * u qF true), ?_⟩
    intro i
    have hRflip :
        (∏ q' ∈ Finset.univ.erase qF, u q' ((flipIdx q i).val.testBit q'.val)) =
          ∏ q' ∈ Finset.univ.erase qF, u q' (i.val.testBit q'.val) := by
      apply Finset.prod_congr rfl
      intro q' hq'
      have hne : q'.val ≠ q := by
        intro hv
        exact (Finset.mem_erase.mp hq').1 (Fin.ext hv)
      rw [testBit_flipIdx_ne q q'.val hne]
    have hRupd :
        (∏ q' ∈ Finset.univ.erase qF,
            Function.update u qF
              (fun b =>
                if b then m.c * u qF false + m.d * u qF true
                else m.a * u qF false + m.b * u qF true) q'
              (i.val.testBit q'.val)) =
          ∏ q' ∈ Finset.univ.erase qF, u q' (i.val.testBit q'.val) := by
      apply Finset.prod_congr rfl
      intro q' hq'
      rw [Function.update_noteq (Finset.mem_erase.mp hq').1]
    rw [prod_split_one]
    rw [hRupd, Function.update_same]
    by_cases hb : i.val.testBit q
    · rw [applyGate_apply_of_testBit_true _ _ hq _ _ hb]
      have h1 : ψ i = u qF true * ∏ q' ∈ Finset.univ.erase qF,
          u q' (i.val.testBit q'.val) := by
        rw [hu i, prod_split_one]
        have : i.val.testBit qF.val = true := hb
        rw [this]
      have h2 : ψ (flipIdx q i) = u qF false * ∏ q' ∈ Finset.univ.erase qF,
          u q' (i.val.testBit q'.val) := by
        rw [hu (flipIdx q i), prod_split_one]
        have : (flipIdx q i).val.testBit qF.val = false := by
          show (flipIdx q i).val.testBit q = false
          rw [testBit_flipIdx_self q hq, hb]
          rfl
        rw [this, hRflip]
      have hbv : i.val.testBit qF.val = true := hb
      rw [h1, h2, hbv]
      simp only [if_true]
      ring
    · have hb' : i.val.testBit q = false := by simpa using hb
      rw [applyGate_apply_of_testBit_false _ _ hq _ _ hb']
      have h1 : ψ i = u qF false * ∏ q' ∈ Finset.univ.erase qF,
          u q' (i.val.testBit q'.val) := by
        rw [hu i, prod_split_one]
        have : i.val.testBit qF.val = false := hb'
        rw [this]
      have h2 : ψ (flipIdx q i) = u qF true * ∏ q' ∈ Finset.univ.erase qF,
          u q' (i.val.testBit q'.val) := by
        rw [hu (flipIdx q i), prod_split_one]
        have : (flipIdx q i).val.testBit qF.val = true := by
          show (flipIdx q i).val.testBit q = true
          rw [testBit_flipIdx_self q hq, hb']
          rfl
        rw [this, hRflip]
      have hbv : i.val.testBit qF.val = false := hb'
      rw [h1, h2, hbv]
      rw [if_neg Bool.false_ne_true]
      ring
  · rw [applyGate, if_neg hq]
    exact h

/-! ## Rank-one factorization of reduced matrices of separable states -/

/-- For a separable state, the one-qubit reduced matrix factors as an outer
product w * conj w scaled by a self-conjugate constant T, with
(sum |w|^2) * T equal to the total squared norm. -/
theorem rhoQubit_factor {n : ℕ} (ψ : QState n) (q : ℕ) (hq : q < n)
    (h : Separable ψ) :
    ∃ (w : Bool → CQ) (T : CQ), CQ.conj T = T ∧
      (∀ s t, rhoQubit ψ q s t = w s * CQ.conj (w t) * T) ∧
      (∑ s : Bool, w s * CQ.conj (w s)) * T = sumNS ψ := by
  obtain ⟨u, hu⟩ := h
  set qF : Fin n := ⟨q, hq⟩ with hqF
  set R : Fin (2 ^ n) → CQ :=
    fun i => ∏ q' ∈ Finset.univ.erase qF, u q' (i.val.testBit q'.val) with hR
  set F : Finset (Fin (2 ^ n)) :=
    Finset.univ.filter (fun i : Fin (2 ^ n) => i.val.testBit q = false) with hF
  refine ⟨u qF, ∑ i ∈ F, R i * CQ.conj (R i), ?_, ?_, ?_⟩
  · rw [conj_sum]
    apply Finset.sum_congr rfl
    intro i _
    rw [CQ.conj_mul, CQ.conj_conj]
    ring
  · intro s t
    have hψset : ∀ (b : Bool) (i : Fin (2 ^ n)), i ∈ F →
        ψ (setIdx q b i) = u qF b * R i := by
      intro b i hi
      rw [hF, Finset.mem_filter] at hi
      rw [hu (setIdx q b i), prod_split_one]
      have hself : (setIdx q b i).val.testBit qF.val = b :=
        testBit_setIdx_self q hq b i hi.2
      rw [hself]
      congr 1
      apply Finset.prod_congr rfl
      intro q' hq'
      have hne : q'.val ≠ q := by
        intro hv
        exact (Finset.mem_erase.mp hq').1 (Fin.ext hv)
      rw [testBit_setIdx_ne q q'.val hne]
    unfold rhoQubit
    simp only [Matrix.of_apply]
    rw [Finset.mul_sum]
    apply Finset.sum_congr rfl
    intro i hi
    rw [hψset s i hi, hψset t i hi, CQ.conj_mul]
    ring
  · have hψF : ∀ i ∈ F, ψ i = u qF false * R i := by
      intro i hi
      rw [hF, Finset.mem_filter] at hi
      rw [hu i, prod_split_one]
      have : i.val.testBit qF.val = false := hi.2
      rw [this]
    have hψFf : ∀ i ∈ F, ψ (flipIdx q i) = u qF true * R i := by
      intro i hi
      rw [hF, Finset.mem_filter] at hi
      rw [hu (flipIdx q i), prod_split_one]
      have hbit : (flipIdx q i).val.testBit qF.val = true := by
        show (flipIdx q i).val.testBit q = true
        rw [testBit_flipIdx_self q hq, hi.2]
        rfl
      rw [hbit]
      congr 1
      apply Finset.prod_congr rfl
      intro q' hq'
      have hne : q'.val ≠ q := by
        intro hv
        exact (Finset.mem_erase.mp hq').1 (Fin.ext hv)
      rw [testBit_flipIdx_ne q q'.val hne]
    rw [sumNS, sum_pairing q hq]
    rw [Finset.sum_mul]
    rw [Fintype.sum_bool]
    rw [← hF]
    rw [Finset.mul_sum, Finset.mul_sum, ← Finset.sum_add_distrib]
    rw [eq_comm]
    apply Finset.sum_congr rfl
    intro i hi
    rw [hψF i hi, hψFf i hi, CQ.conj_mul, CQ.conj_mul]
    ring

/-- For a separable state, the two-qubit reduced matrix factors as an outer
product w * conj w scaled by a self-conjugate constant T, with
(sum |w|^2) * T equal to the total squared norm. -/
theorem rhoPair_factor {n : ℕ} (ψ : QState n) (q1 q2 : ℕ) (hq1 : q1 < n)
    (hq2 : q2 < n) (hne : q1 ≠ q2) (h : Separable ψ) :
    ∃ (w : Bool × Bool → CQ) (T : CQ), CQ.conj T = T ∧
      (∀ p p', rhoPair ψ q1 q2 p p' = w p * CQ.conj (w p') * T) ∧
      (∑ p : Bool × Bool, w p * CQ.conj (w p)) * T = sumNS ψ := by
  obtain ⟨u, hu⟩ := h
  set qF1 : Fin n := ⟨q1, hq1⟩ with hqF1
  set qF2 : Fin n := ⟨q2, hq2⟩ with hqF2
  have hneF : qF2 ≠ qF1 := by
    intro hc
    exact hne (congrArg Fin.val hc).symm
  set E : Finset (Fin n) := (Finset.univ.erase qF1).erase qF2 with hE
  set R : Fin (2 ^ n) → CQ :=
    fun i => ∏ q' ∈ E, u q' (i.val.testBit q'.val) with hR
  set FF : Finset (Fin (2 ^ n)) :=
    Finset.univ.filter
      (fun i : Fin (2 ^ n) =>
        i.val.testBit q1 = false ∧ i.val.testBit q2 = false) with hFF
  have hEval : ∀ q' : Fin n, q' ∈ E → q'.val ≠ q1 ∧ q'.val ≠ q2 := by
    intro q' hq'
    rw [hE, Finset.mem_erase, Finset.mem_erase] at hq'
    constructor
    · intro hv
      exact hq'.2.1 (Fin.ext hv)
    · intro hv
      exact hq'.1 (Fin.ext hv)
  have hψpair : ∀ (p : Bool × Bool), ∀ i ∈ FF,
      ψ (pairIdx q1 q2 p i) = (u qF1 p.1 * u qF2 p.2) * R i := by
    intro p i hi
    rw [hFF, Finset.mem_filter] at hi
    obtain ⟨-, hb1, hb2⟩ := hi
    rw [hu (pairIdx q1 q2 p i)]
    rw [← Finset.mul_prod_erase Finset.univ _ (Finset.mem_univ qF1)]
    rw [← Finset.mul_prod_erase (Finset.univ.erase qF1) _
      (Finset.mem_erase.mpr ⟨hneF, Finset.mem_univ qF2⟩)]
    rw [← hE, ← mul_assoc]
    have e1 : (pairIdx q1 q2 p i).val.testBit qF1.val = p.1 := by
      show (pairIdx q1 q2 p i).val.testBit q1 = p.1
      unfold pairIdx
      rw [testBit_setIdx_self q1 hq1 p.1 _ ?_]
      rw [testBit_setIdx_ne q2 q1 hne p.2 i]
      exact hb1
    have e2 : (pairIdx q1 q2 p i).val.testBit qF2.val = p.2 := by
      show (pairIdx q1 q2 p i).val.testBit q2 = p.2
      unfold pairIdx
      rw [testBit_setIdx_ne q1 q2 (fun hc => hne hc.symm) p.1 _]
      exact testBit_setIdx_self q2 hq2 p.2 i hb2
    rw [e1, e2]
    congr 1
    apply Finset.prod_congr rfl
    intro q' hq'
    obtain ⟨hv1, hv2⟩ := hEval q' hq'
    unfold pairIdx
    rw [testBit_setIdx_ne q1 q'.val hv1, testBit_setIdx_ne q2 q'.val hv2]
  refine ⟨fun p => u qF1 p.1 * u qF2 p.2, ∑ i ∈ FF, R i * CQ.conj (R i),
    ?_, ?_, ?_⟩
  · rw [conj_sum]
    apply Finset.sum_congr rfl
    intro i _
    rw [CQ.conj_mul, CQ.conj_conj]
    ring
  · intro p p'
    unfold rhoPair
    simp only [Matrix.of_apply]
    rw [Finset.mul_sum, ← hFF]
    apply Finset.sum_congr rfl
    intro i hi
    rw [hψpair p i hi, hψpair p' i hi, CQ.conj_mul]
    ring
  · rw [sumNS, sum_partition_pair hq1 hq2 hne (fun i => ψ i * CQ.conj (ψ i)),
      ← hFF]
    rw [Finset.sum_mul]
    simp only [Finset.mul_sum]
    rw [Finset.sum_comm]
    apply Finset.sum_congr rfl
    intro i hi
    apply Finset.sum_congr rfl
    intro p _
    rw [hψpair p i hi]
    simp only [CQ.conj_mul]
    ring

/-! ## Eigenvalue-based subsystem entropy

Mirrors qiskit's `entropy(rho, base=2)` as used by `_calculate_entanglement`
(quantum_simulator.py lines 453-478): the von Neumann entropy of a density
matrix is computed from its eigenvalues, with near-zero eigenvalues skipped. -/

/-- A matrix whose entries factor as w p * conj (w p') * T with total weight
one squares to itself. -/
theorem rank1_idem {ι : Type} [Fintype ι] [DecidableEq ι]
    (M : Matrix ι ι CQ) (w : ι → CQ) (T : CQ)
    (hM : ∀ p p', M p p' = w p * CQ.conj (w p') * T)
    (htr : (∑ p, w p * CQ.conj (w p)) * T = 1) : M * M = M := by
  apply Matrix.ext
  intro p p'
  rw [Matrix.mul_apply]
  have step : ∀ c, M p c * M c p' =
      (w p * CQ.conj (w p') * T) * (w c * CQ.conj (w c) * T) := by
    intro c
    rw [hM p c, hM c p']
    ring
  rw [Finset.sum_congr rfl (fun c _ => step c)]
  rw [← Finset.mul_sum]
  rw [← Finset.sum_mul]
  rw [mul_assoc, htr, mul_one, hM]

/-- Entrywise complex value of a matrix over Q[sqrt 2, i]. -/
noncomputable def matC {ι : Type} (M : Matrix ι ι CQ) : Matrix ι ι ℂ :=
  Matrix.of fun p p' => CQ.toC (M p p')

theorem matC_apply {ι : Type} (M : Matrix ι ι CQ) (p p' : ι) :
    matC M p p' = CQ.toC (M p p') := rfl

theorem matC_herm {ι : Type} [Fintype ι] (M : Matrix ι ι CQ)
    (h : ∀ p p', CQ.conj (M p' p) = M p p') : (matC M).IsHermitian := by
  rw [Matrix.IsHermitian]
  apply Matrix.ext
  intro p p'
  rw [Matrix.conjTranspose_apply, matC_apply, matC_apply]
  rw [← h p' p, CQ.toC_conj]
  simp

theorem matC_mul {ι : Type} [Fintype ι] (M N : Matrix ι ι CQ) :
    matC (M * N) = matC M * matC N := by
  apply Matrix.ext
  intro p p'
  rw [Matrix.mul_apply, matC_apply, Matrix.mul_apply]
  have hs : CQ.toC (∑ j, M p j * N j p') = ∑ j, CQ.toC (M p j * N j p') :=
    map_sum CQ.toCHom _ Finset.univ
  rw [hs]
  apply Finset.sum_congr rfl
  intro c _
  rw [CQ.toC_mul]
  rfl

/-- The eigenvalue-based von Neumann entropy (base 2) of a matrix: the sum
of -lambda * log2 lambda over eigenvalues above the 1e-16 threshold (the
spec's section 4.4 formula; non-Hermitian input is out of the engine's
contract and mapped to 0). -/
noncomputable def eigEntropy {ι : Type} [Fintype ι] [DecidableEq ι]
    (A : Matrix ι ι ℂ) : ℝ :=
  if h : A.IsHermitian then
    -(∑ i, if 1e-16 < h.eigenvalues i then
        h.eigenvalues i * Real.logb 2 (h.eigenvalues i) else 0)
  else 0

/-- The eigenvalues of an idempotent Hermitian matrix are 0 or 1.  qiskit's
entropy of such a matrix is exactly 0. -/
theorem eigEntropy_of_idem {ι : Type} [Fintype ι] [DecidableEq ι]
    (A : Matrix ι ι ℂ) (hA : A.IsHermitian) (hid : A * A = A) :
    eigEntropy A = 0 := by
  rw [eigEntropy, dif_pos hA]
  have hzero : ∀ i, (if 1e-16 < hA.eigenvalues i then
      hA.eigenvalues i * Real.logb 2 (hA.eigenvalues i) else 0) = 0 := by
    intro i
    have hv := hA.mulVec_eigenvectorBasis i
    have hvne : (⇑(hA.eigenvectorBasis i) : ι → ℂ) ≠ 0 := by
      intro hc
      exact hA.eigenvectorBasis.orthonormal.ne_zero i hc
    have hsq : hA.eigenvalues i * hA.eigenvalues i = hA.eigenvalues i := by
      have h1 : A.mulVec (A.mulVec ⇑(hA.eigenvectorBasis i)) =
          A.mulVec ⇑(hA.eigenvectorBasis i) := by
        rw [Matrix.mulVec_mulVec, hid]
      rw [hv, Matrix.mulVec_smul, hv, smul_smul] at h1
      have h2 : (hA.eigenvalues i * hA.eigenvalues i - hA.eigenvalues i) •
          (⇑(hA.eigenvectorBasis i) : ι → ℂ) = 0 := by
        rw [sub_smul, h1, sub_self]
      rcases smul_eq_zero.mp h2 with h3 | h3
      · linarith [h3]
      · exact absurd h3 hvne
    have hfac : hA.eigenvalues i * (hA.eigenvalues i - 1) = 0 := by
      have hexp : hA.eigenvalues i * (hA.eigenvalues i - 1) =
          hA.eigenvalues i * hA.eigenvalues i - hA.eigenvalues i := by
        ring
      rw [hexp, hsq, sub_self]
    rcases mul_eq_zero.mp hfac with h4 | h4
    · rw [h4]
      norm_num
    · have h5 : hA.eigenvalues i = 1 := by linarith
      rw [h5]
      simp [Real.logb_one]
  rw [Finset.sum_eq_zero (fun i _ => hzero i), neg_zero]

/-- For a separable normalized state, the one-qubit subsystem entropy is
exactly zero. -/
theorem eigEntropy_rhoQubit_zero {n : ℕ} (ψ : QState n) (q : ℕ) (hq : q < n)
    (hsep : Separable ψ) (hnorm : sumNS ψ = 1) :
    eigEntropy (matC (rhoQubit ψ q)) = 0 := by
  obtain ⟨w, T, hT, hfac, htr⟩ := rhoQubit_factor ψ q hq hsep
  have hidem : rhoQubit ψ q * rhoQubit ψ q = rhoQubit ψ q := by
    apply rank1_idem _ w T hfac
    rw [htr, hnorm]
  apply eigEntropy_of_idem _ (matC_herm _ (rhoQubit_herm ψ q))
  rw [← matC_mul, hidem]

/-- For a separable normalized state, the two-qubit subsystem entropy is
exactly zero. -/
theorem eigEntropy_rhoPair_zero {n : ℕ} (ψ : QState n) (q1 q2 : ℕ)
    (hq1 : q1 < n) (hq2 : q2 < n) (hne : q1 ≠ q2)
    (hsep : Separable ψ) (hnorm : sumNS ψ = 1) :
    eigEntropy (matC (rhoPair ψ q1 q2)) = 0 := by
  obtain ⟨w, T, hT, hfac, htr⟩ := rhoPair_factor ψ q1 q2 hq1 hq2 hne hsep
  have hidem : rhoPair ψ q1 q2 * rhoPair ψ q1 q2 = rhoPair ψ q1 q2 := by
    apply rank1_idem _ w T hfac
    rw [htr, hnorm]
  apply eigEntropy_of_idem _ (matC_herm _ (rhoPair_herm ψ q1 q2))
  rw [← matC_mul, hidem]

/-- `_calculate_entanglement` (quantum_simulator.py lines 453-478): 0 for
fewer than two qubits; the entropy of qubit 0's reduced state for exactly
two qubits (tracing out qubit 1); the average of the per-qubit reduced
entropies otherwise. -/
noncomputable def calculateEntanglement (n : ℕ) (ψ : QState n) : ℝ :=
  if n < 2 then 0
  else if n = 2 then eigEntropy (matC (rhoQubit ψ 0))
  else (∑ q ∈ Finset.range n, eigEntropy (matC (rhoQubit ψ q))) / n

theorem calculateEntanglement_zero {n : ℕ} (ψ : QState n)
    (hsep : Separable ψ) (hnorm : sumNS ψ = 1) :
    calculateEntanglement n ψ = 0 := by
  unfold calculateEntanglement
  by_cases h2 : n < 2
  · rw [if_pos h2]
  · rw [if_neg h2]
    by_cases he : n = 2
    · rw [if_pos he]
      exact eigEntropy_rhoQubit_zero ψ 0 (by omega) hsep hnorm
    · rw [if_neg he]
      rw [Finset.sum_eq_zero, zero_div]
      intro q hq
      exact eigEntropy_rhoQubit_zero ψ q (Finset.mem_range.mp hq) hsep hnorm

/-! ## The data model of the engine

GateSpec / Circuit as consumed by `simulate_with_steps` (spec section 3):
a gate has a kind string, a target qubit and a position; a circuit is the
gate list of the request payload. -/

/-- A gate specification (after the upstream layer's key defaulting:
`gate_data.get('gate', 'I')`, `gate_data.get('qubit', 0)`,
`gate_data.get('position', 0)`). -/
structure Gate where
  gate : String
  qubit : ℕ
  position : ℕ
deriving DecidableEq, Repr

/-- Qubit count derivation of `_build_circuit` (lines 193-214): an empty
gate list yields the default 2-qubit circuit, otherwise the maximal qubit
index plus one. -/
def numQubits (gates : List Gate) : ℕ :=
  if gates.isEmpty then 2
  else (gates.foldl (fun m g => max m g.qubit) 0) + 1

/-- Stable sort of the gates by position (`sorted(gates, key=position)`,
lines 146 and 208). -/
def sortGates (gates : List Gate) : List Gate :=
  gates.mergeSort (fun g1 g2 => decide (g1.position ≤ g2.position))

/-- Gate application dispatched on the kind string (`_add_single_gate`
followed by `Statevector.evolve`): known kinds apply their catalog matrix
to the target qubit, unknown kinds leave the state unchanged. -/
def applyGateData {n : ℕ} (g : Gate) (ψ : QState n) : QState n :=
  applyGate (gateMatrices g.gate) g.qubit ψ

/-- One recorded simulation step (the step dictionaries of
`simulate_with_steps`, restricted to the engine-computed numeric payload:
state vector snapshot, per-qubit Bloch vectors, basis probabilities). -/
structure StepRec where
  step : ℕ
  operation : String
  qubit : ℕ
  position : ℕ
  state_vector : List CQ
  bloch_vectors : List (CQ × CQ × CQ)
  measurement_probabilities : List CQ
deriving DecidableEq, Repr

/-- Bloch vector of one qubit from its reduced density matrix
(`_calculate_all_bloch_vectors`, lines 248-282): x = Tr(rho X),
y = Tr(rho Y), z = Tr(rho Z), exactly in Q[sqrt 2, i]. -/
def blochOfQubit {n : ℕ} (ψ : QState n) (q : ℕ) : CQ × CQ × CQ :=
  (rhoQubit ψ q false true + rhoQubit ψ q true false,
   iCQ * (rhoQubit ψ q false true - rhoQubit ψ q true false),
   rhoQubit ψ q false false - rhoQubit ψ q true true)

/-- Build one step record from the state after the operation. -/
def mkStep {n : ℕ} (idx : ℕ) (op : String) (qb pos : ℕ) (ψ : QState n) :
    StepRec :=
  { step := idx, operation := op, qubit := qb, position := pos,
    state_vector := List.ofFn ψ,
    bloch_vectors := List.ofFn (fun q : Fin n => blochOfQubit ψ q.val),
    measurement_probabilities := List.ofFn (fun i => ψ i * CQ.conj (ψ i)) }

/-- The step loop of `simulate_with_steps` (lines 148-179): enumerate the
sorted gates; a gate whose processing raises is skipped (`except: continue`)
with the enumeration index still advancing; a successful gate evolves the
state and appends its step record. The gate applier is a parameter so that
the loop's error handling is stated for every failure pattern. -/
def gateLoop {n : ℕ} (f : Gate → QState n → Except String (QState n)) :
    ℕ → List Gate → QState n → List StepRec → List StepRec × QState n
  | _, [], ψ, acc => (acc, ψ)
  | i, g :: rest, ψ, acc =>
    match f g ψ with
    | Except.ok ψ' =>
        gateLoop f (i + 1) rest ψ'
          (acc ++ [mkStep (i + 1) g.gate g.qubit g.position ψ'])
    | Except.error _ => gateLoop f (i + 1) rest ψ acc

/-! ## Real-valued metric functions

Mirrors `_calculate_advanced_metrics`, `_calculate_purity`,
`_calculate_coherence_measures` (quantum_simulator.py lines 434-526) and
`_calculate_basic_metrics`, `_calculate_coherence_metrics`
(quantum_analytics.py lines 399-446, 501-517). -/

/-- The basis probabilities |amp|^2 of an amplitude list, as real numbers. -/
noncomputable def probsR (amps : List CQ) : List ℝ := amps.map CQ.normSqR

/-- The distribution entropy formula shared by the `von_neumann_entropy`
output of `_calculate_advanced_metrics` (line 442), the
`relative_entropy_coherence` output of `_calculate_coherence_measures`
(line 524) and the `current_entropy` of `_calculate_coherence_metrics`
(quantum_analytics.py line 510):
-sum of p * log2(p + 1e-16) over probabilities p above 1e-16.  Skipped
terms are modelled as zero summands. -/
noncomputable def distributionEntropy (probs : List ℝ) : ℝ :=
  -((probs.map
      (fun p => if 1e-16 < p then p * Real.logb 2 (p + 1e-16) else 0)).sum)

/-- Purity of a state (`_calculate_purity`, lines 480-483): the sum of
squared basis probabilities. -/
noncomputable def purity (amps : List CQ) : ℝ :=
  ((probsR amps).map (fun p => p ^ 2)).sum

/-- L1-magnitude coherence (`_calculate_coherence_measures`, lines 516-520):
the sum of amplitude moduli minus the square root of the probability sum. -/
noncomputable def l1Coherence (amps : List CQ) : ℝ :=
  (amps.map (fun z => Complex.abs (CQ.toC z))).sum -
    Real.sqrt (probsR amps).sum

/-- The simulator's reported relative-entropy coherence
(`_calculate_coherence_measures`, line 524): it is the distribution
entropy of the basis probabilities. -/
noncomputable def relEntropyCoherenceSim (amps : List CQ) : ℝ :=
  distributionEntropy (probsR amps)

/-- The analytics service's reported relative-entropy coherence
(`_calculate_coherence_metrics`, quantum_analytics.py lines 508-511):
log2 of the Hilbert-space dimension minus the distribution entropy. -/
noncomputable def relEntropyCoherenceAna (amps : List CQ) : ℝ :=
  Real.logb 2 (amps.length : ℝ) - distributionEntropy (probsR amps)

/-- Python float division: raises ZeroDivisionError on a zero divisor. -/
noncomputable def pydiv (x y : ℝ) : Except String ℝ :=
  if y = 0 then Except.error "float division by zero" else Except.ok (x / y)

/-- The probability normalization of `_calculate_basic_metrics`
(quantum_analytics.py lines 402-410): divide by the total when it is
positive, otherwise fall back to the uniform distribution. -/
noncomputable def normalizedProbs (amps : List CQ) : List ℝ :=
  if 0 < (probsR amps).sum then
    (probsR amps).map (fun p => p / (probsR amps).sum)
  else (probsR amps).map (fun _ => 1 / ((probsR amps).length : ℝ))

/-- The participation-ratio metric of the analytics service
(`_calculate_basic_metrics`, quantum_analytics.py lines 421-423): computed
on the normalized probabilities, guarded at 1e-16; on an empty amplitude
list the body raises in the uniform fallback (1.0 / 0) and the surrounding
`except` returns the default value 1.0. -/
noncomputable def participationMetricAna (amps : List CQ) : ℝ :=
  if amps.isEmpty then 1
  else
    if 1e-16 < ((normalizedProbs amps).map (fun p => p ^ 2)).sum then
      1 / ((normalizedProbs amps).map (fun p => p ^ 2)).sum
    else 1

/-- The participation-ratio metric of the simulator
(`_calculate_advanced_metrics`, quantum_simulator.py line 450): the
unguarded division 1 / (sum of squared probabilities). -/
noncomputable def participationMetricSim (amps : List CQ) : Except String ℝ :=
  pydiv 1 (((probsR amps).map (fun p => p ^ 2)).sum)

/-- The final-metrics dictionary of a successful simulation.  The subset of
keys produced by the error fallback carries the other keys as `none`. -/
structure FinalMetrics where
  purity : ℝ
  entanglement : ℝ
  fidelity : ℝ
  von_neumann_entropy : Option ℝ
  linear_entropy : Option ℝ
  participation : Option ℝ
  error : Option String

/-- The coherence_measures dictionary (the fallbacks report only the
l1 value). -/
structure CoherenceMeasures where
  l1_norm_coherence : ℝ
  relative_entropy_coherence : Option ℝ

/-- Circuit statistics (`_calculate_circuit_statistics`, lines 528-550). -/
structure CircuitStats where
  total_gates : ℕ
  circuit_depth : ℕ
  num_qubits : ℕ
  density : ℚ
deriving DecidableEq, Repr

/-- The aggregate result dictionary of `simulate_with_steps` (lines
181-187; `entanglement_measure` is the measure reported inside
`entanglement_analysis`). -/
structure SimResult where
  steps : List StepRec
  final_metrics : FinalMetrics
  entanglement_measure : ℝ
  coherence_measures : CoherenceMeasures
  circuit_statistics : CircuitStats

/-- `_calculate_advanced_metrics` (lines 434-451); the participation
division is the only fallible part, and an exception there propagates to
the caller's handler. -/
noncomputable def advancedMetrics (n : ℕ) (ψ : QState n) :
    Except String FinalMetrics :=
  match participationMetricSim (List.ofFn ψ) with
  | Except.error e => Except.error e
  | Except.ok pr =>
    Except.ok
      { purity := purity (List.ofFn ψ),
        entanglement := calculateEntanglement n ψ,
        fidelity := Real.sqrt (purity (List.ofFn ψ)),
        von_neumann_entropy := some (distributionEntropy (probsR (List.ofFn ψ))),
        linear_entropy := some (1 - purity (List.ofFn ψ)),
        participation := some pr,
        error := none }

/-- `_calculate_coherence_measures` (lines 513-526). -/
noncomputable def coherenceMeasuresOf (amps : List CQ) : CoherenceMeasures :=
  { l1_norm_coherence := l1Coherence amps,
    relative_entropy_coherence := some (relEntropyCoherenceSim amps) }

/-- `_calculate_circuit_statistics` (lines 528-550). -/
def circuitStatistics (gates : List Gate) : CircuitStats :=
  let depth := (gates.foldl (fun m g => max m g.position) 0) + 1
  let nq := (gates.foldl (fun m g => max m g.qubit) 0) + 1
  { total_gates := gates.length,
    circuit_depth := depth,
    num_qubits := nq,
    density :=
      if 0 < depth then (gates.length : ℚ) / ((nq : ℚ) * (depth : ℚ)) else 0 }

/-- The placeholder ground-state step of `_error_fallback_result`. -/
def errorFallbackStep : StepRec :=
  { step := 0
    operation := "error"
    qubit := 0
    position := 0
    state_vector := [1]
    bloch_vectors := [(0, 0, 1)]
    measurement_probabilities := [1] }

/-- `_error_fallback_result` (lines 574-595): ground-state placeholder step
with the error message attached to the final metrics. -/
noncomputable def errorFallbackResult (msg : String) : SimResult :=
  { steps := [errorFallbackStep]
    final_metrics :=
      { purity := 1
        entanglement := 0
        fidelity := 1
        von_neumann_entropy := none
        linear_entropy := none
        participation := none
        error := some msg }
    entanglement_measure := 0
    coherence_measures :=
      { l1_norm_coherence := 0
        relative_entropy_coherence := none }
    circuit_statistics :=
      { total_gates := 0
        circuit_depth := 0
        num_qubits := 1
        density := 0 } }

/-- The single step of `_empty_circuit_result`. -/
def emptyCircuitStep : StepRec :=
  { step := 0
    operation := "empty_circuit"
    qubit := 0
    position := 0
    state_vector := []
    bloch_vectors := []
    measurement_probabilities := [] }

/-- `_empty_circuit_result` (lines 552-572); unreachable because
`_build_circuit` never yields a 0-qubit register. -/
noncomputable def emptyCircuitResult : SimResult :=
  { steps := [emptyCircuitStep]
    final_metrics :=
      { purity := 1
        entanglement := 0
        fidelity := 1
        von_neumann_entropy := none
        linear_entropy := none
        participation := none
        error := none }
    entanglement_measure := 0
    coherence_measures :=
      { l1_norm_coherence := 0
        relative_entropy_coherence := none }
    circuit_statistics :=
      { total_gates := 0
        circuit_depth := 0
        num_qubits := 0
        density := 0 } }

/-- The mutable attributes of `AdvancedQuantumSimulator.__init__` (lines
21-25); `simulate_with_steps` never reads them. -/
structure AdvancedQuantumSimulator where
  current_circuit : Option (List Gate)
  step_history : List StepRec

/-- The mutable attribute of `QuantumAnalytics.__init__`
(quantum_analytics.py lines 20-22); never read by the metric functions. -/
structure QuantumAnalytics where
  metrics_cache : List (String × ℝ)

/-- `simulate_with_steps` (lines 82-191), generic in the gate applier so
that its per-gate exception handling is captured: derive the qubit count,
fail fast on the resource limit before the 2^n state is created, run the
step loop from the ground state, and convert any exception escaping the
body (modelled by the fallible metrics computation) into the error
fallback result.  The wall-clock timeout checks are not modelled. -/
noncomputable def simulateWithStepsG
    (f : (n : ℕ) → Gate → QState n → Except String (QState n))
    (circuit : List Gate) : SimResult :=
  if numQubits circuit = 0 then emptyCircuitResult
  else if 10 < numQubits circuit then
    errorFallbackResult "Circuit too large for simulation (>10 qubits)"
  else
    match advancedMetrics (numQubits circuit)
        (gateLoop (f (numQubits circuit)) 0 (sortGates circuit)
          (groundState (numQubits circuit))
          [mkStep 0 "initialization" 0 0 (groundState (numQubits circuit))]).2 with
    | Except.error e => errorFallbackResult e
    | Except.ok fm =>
      { steps :=
          (gateLoop (f (numQubits circuit)) 0 (sortGates circuit)
            (groundState (numQubits circuit))
            [mkStep 0 "initialization" 0 0 (groundState (numQubits circuit))]).1
        final_metrics := fm
        entanglement_measure :=
          calculateEntanglement (numQubits circuit)
            (gateLoop (f (numQubits circuit)) 0 (sortGates circuit)
              (groundState (numQubits circuit))
              [mkStep 0 "initialization" 0 0 (groundState (numQubits circuit))]).2
        coherence_measures :=
          coherenceMeasuresOf (List.ofFn
            (gateLoop (f (numQubits circuit)) 0 (sortGates circuit)
              (groundState (numQubits circuit))
              [mkStep 0 "initialization" 0 0 (groundState (numQubits circuit))]).2)
        circuit_statistics := circuitStatistics circuit }

/-- The engine's gate application never raises for a well-typed gate
dictionary: `_add_single_gate` treats unknown kinds as no-ops. -/
def okApply (n : ℕ) : Gate → QState n → Except String (QState n) :=
  fun g ψ => Except.ok (applyGateData g ψ)

/-- `AdvancedQuantumSimulator.simulate_with_steps`: the method's result
depends only on the circuit and options, not on the instance state. -/
noncomputable def AdvancedQuantumSimulator.simulate_with_steps
    (self : AdvancedQuantumSimulator) (circuit : List Gate)
    (options : List (String × String)) : SimResult :=
  simulateWithStepsG okApply circuit

/-- `QuantumAnalytics._calculate_basic_metrics` participation output as a
method of the analytics instance (quantum_analytics.py lines 399-446). -/
noncomputable def QuantumAnalytics.basicParticipation
    (self : QuantumAnalytics) (amps : List CQ) : ℝ :=
  participationMetricAna amps

/-! ## Characterization of the step loop and the invariants it preserves -/

/-- The state after applying a gate list in order. -/
def foldState {n : ℕ} (gates : List Gate) (ψ : QState n) : QState n :=
  gates.foldl (fun s g => applyGateData g s) ψ

/-- The step records produced by a run of the loop in which no gate
raises. -/
def traceSteps {n : ℕ} : ℕ → List Gate → QState n → List StepRec
  | _, [], _ => []
  | i, g :: rest, ψ =>
    mkStep (i + 1) g.gate g.qubit g.position (applyGateData g ψ) ::
      traceSteps (i + 1) rest (applyGateData g ψ)

@[simp] theorem foldState_nil {n : ℕ} (ψ : QState n) : foldState [] ψ = ψ := rfl

theorem foldState_cons {n : ℕ} (g : Gate) (gates : List Gate) (ψ : QState n) :
    foldState (g :: gates) ψ = foldState gates (applyGateData g ψ) := rfl

theorem foldState_append {n : ℕ} (l1 l2 : List Gate) (ψ : QState n) :
    foldState (l1 ++ l2) ψ = foldState l2 (foldState l1 ψ) :=
  List.foldl_append _ _ _ _

/-- With the engine's never-raising gate applier, the loop appends exactly
one step per gate and ends in the folded state. -/
theorem gateLoop_okApply {n : ℕ} (gates : List Gate) :
    ∀ (i : ℕ) (ψ : QState n) (acc : List StepRec),
      gateLoop (okApply n) i gates ψ acc =
        (acc ++ traceSteps i gates ψ, foldState gates ψ) := by
  induction gates with
  | nil =>
    intro i ψ acc
    simp [gateLoop, traceSteps]
  | cons g rest ih =>
    intro i ψ acc
    rw [gateLoop]
    show gateLoop (okApply n) (i + 1) rest (applyGateData g ψ)
        (acc ++ [mkStep (i + 1) g.gate g.qubit g.position (applyGateData g ψ)]) = _
    rw [ih]
    rw [traceSteps, foldState_cons]
    rw [List.append_assoc]
    rfl

theorem traceSteps_length {n : ℕ} (gates : List Gate) :
    ∀ (i : ℕ) (ψ : QState n), (traceSteps i gates ψ).length = gates.length := by
  induction gates with
  | nil => intro i ψ; rfl
  | cons g rest ih =>
    intro i ψ
    rw [traceSteps, List.length_cons, ih, List.length_cons]

/-- The state snapshot stored at position k of the trace is the fold of the
first k+1 gates. -/
theorem traceSteps_state {n : ℕ} (gates : List Gate) :
    ∀ (i k : ℕ) (ψ : QState n), k < gates.length →
      ((traceSteps i gates ψ)[k]?).map (fun s => s.state_vector) =
        some (List.ofFn (foldState (gates.take (k + 1)) ψ)) := by
  induction gates with
  | nil =>
    intro i k ψ hk
    exact absurd hk (by simp)
  | cons g rest ih =>
    intro i k ψ hk
    cases k with
    | zero =>
      rw [traceSteps]
      simp [mkStep, foldState_cons]
    | succ k' =>
      rw [traceSteps]
      rw [List.getElem?_cons_succ]
      rw [ih (i + 1) k' (applyGateData g ψ)
        (by simpa using Nat.lt_of_succ_lt_succ hk)]
      rw [List.take_cons (Nat.succ_pos _), foldState_cons]
      rfl

/-- Norm preservation for a single engine gate. -/
theorem sumNS_applyGateData {n : ℕ} (g : Gate) (ψ : QState n) :
    sumNS (applyGateData g ψ) = sumNS ψ :=
  sumNS_applyGate _ _ (preservesPairNorm_gateMatrices g.gate) ψ

theorem sumNS_foldState {n : ℕ} (gates : List Gate) :
    ∀ ψ : QState n, sumNS (foldState gates ψ) = sumNS ψ := by
  induction gates with
  | nil => intro ψ; rfl
  | cons g rest ih =>
    intro ψ
    rw [foldState_cons, ih, sumNS_applyGateData]

theorem separable_applyGateData {n : ℕ} (g : Gate) (ψ : QState n)
    (h : Separable ψ) : Separable (applyGateData g ψ) :=
  separable_applyGate _ _ _ h

theorem separable_foldState {n : ℕ} (gates : List Gate) :
    ∀ ψ : QState n, Separable ψ → Separable (foldState gates ψ) := by
  induction gates with
  | nil => intro ψ h; exact h
  | cons g rest ih =>
    intro ψ h
    rw [foldState_cons]
    exact ih _ (separable_applyGateData g ψ h)

theorem sumNS_groundState (n : ℕ) : sumNS (groundState n) = 1 := by
  unfold sumNS groundState
  rw [Finset.sum_eq_single (⟨0, Nat.two_pow_pos n⟩ : Fin (2 ^ n))]
  · simp
  · intro b _ hb
    have : b.val ≠ 0 := by
      intro hv
      exact hb (Fin.ext hv)
    simp [this]
  · intro h
    exact absurd (Finset.mem_univ _) h

/-- The real basis probabilities of a normalized exact state sum to 1. -/
theorem sum_normSqR_ofFn {n : ℕ} (ψ : QState n) (h : sumNS ψ = 1) :
    ((List.ofFn ψ).map CQ.normSqR).sum = 1 := by
  rw [List.map_ofFn, List.sum_ofFn]
  simp only [Function.comp]
  have hterm : ∀ i, CQ.normSqR (ψ i) = (CQ.toC (ψ i * CQ.conj (ψ i))).re :=
    fun i => CQ.normSqR_eq_re _
  rw [Finset.sum_congr rfl (fun i _ => hterm i)]
  rw [← Complex.re_sum]
  have hmap : (∑ i, CQ.toC (ψ i * CQ.conj (ψ i))) =
      CQ.toC (∑ i, ψ i * CQ.conj (ψ i)) :=
    (map_sum CQ.toCHom _ Finset.univ).symm
  rw [hmap]
  show (CQ.toC (sumNS ψ)).re = 1
  rw [h]
  simp

/-- The squared-probability sum of a normalized state does not vanish, so
the simulator's unguarded participation division succeeds on every state
it actually reaches. -/
theorem sumSq_ne_zero {n : ℕ} (ψ : QState n) (h : sumNS ψ = 1) :
    (((probsR (List.ofFn ψ)).map (fun p => p ^ 2)).sum) ≠ 0 := by
  intro hc
  have hall : ∀ i : Fin (2 ^ n), CQ.normSqR (ψ i) ^ 2 = 0 := by
    have hrw : ((probsR (List.ofFn ψ)).map (fun p => p ^ 2)).sum =
        ∑ i, CQ.normSqR (ψ i) ^ 2 := by
      rw [probsR, List.map_ofFn, List.map_ofFn, List.sum_ofFn]
      rfl
    rw [hrw] at hc
    intro i
    have := (Finset.sum_eq_zero_iff_of_nonneg
      (fun j _ => sq_nonneg (CQ.normSqR (ψ j)))).mp hc i (Finset.mem_univ i)
    exact this
  have hzero : ∀ i : Fin (2 ^ n), CQ.normSqR (ψ i) = 0 := by
    intro i
    exact pow_eq_zero_iff (by norm_num) |>.mp (hall i)
  have hone := sum_normSqR_ofFn ψ h
  rw [List.map_ofFn, List.sum_ofFn] at hone
  have : (∑ i : Fin (2 ^ n), CQ.normSqR (ψ i)) = 0 :=
    Finset.sum_eq_zero (fun i _ => hzero i)
  rw [show (fun i => (CQ.normSqR ∘ ψ) i) = fun i => CQ.normSqR (ψ i) from rfl]
    at hone
  rw [this] at hone
  norm_num at hone

/-- On a normalized state, `_calculate_advanced_metrics` succeeds and
returns the metric record. -/
theorem advancedMetrics_eq {n : ℕ} (ψ : QState n) (h : sumNS ψ = 1) :
    advancedMetrics n ψ = Except.ok
      { purity := purity (List.ofFn ψ)
        entanglement := calculateEntanglement n ψ
        fidelity := Real.sqrt (purity (List.ofFn ψ))
        von_neumann_entropy := some (distributionEntropy (probsR (List.ofFn ψ)))
        linear_entropy := some (1 - purity (List.ofFn ψ))
        participation := some (1 / ((probsR (List.ofFn ψ)).map (fun p => p ^ 2)).sum)
        error := none } := by
  rw [advancedMetrics, participationMetricSim, pydiv,
    if_neg (sumSq_ne_zero ψ h)]

theorem numQubits_pos (gates : List Gate) : 0 < numQubits gates := by
  unfold numQubits
  split <;> omega

/-- The normal-path result of `simulate_with_steps`: the initialization
step followed by one step per sorted gate, with the metrics of the final
folded state. -/
noncomputable def normalResult (circuit : List Gate) : SimResult :=
  { steps :=
      mkStep 0 "initialization" 0 0 (groundState (numQubits circuit)) ::
        traceSteps 0 (sortGates circuit) (groundState (numQubits circuit))
    final_metrics :=
      { purity := purity (List.ofFn
          (foldState (sortGates circuit) (groundState (numQubits circuit))))
        entanglement := calculateEntanglement (numQubits circuit)
          (foldState (sortGates circuit) (groundState (numQubits circuit)))
        fidelity := Real.sqrt (purity (List.ofFn
          (foldState (sortGates circuit) (groundState (numQubits circuit)))))
        von_neumann_entropy := some (distributionEntropy (probsR (List.ofFn
          (foldState (sortGates circuit) (groundState (numQubits circuit))))))
        linear_entropy := some (1 - purity (List.ofFn
          (foldState (sortGates circuit) (groundState (numQubits circuit)))))
        participation := some (1 / ((probsR (List.ofFn
          (foldState (sortGates circuit)
            (groundState (numQubits circuit))))).map (fun p => p ^ 2)).sum)
        error := none }
    entanglement_measure := calculateEntanglement (numQubits circuit)
      (foldState (sortGates circuit) (groundState (numQubits circuit)))
    coherence_measures := coherenceMeasuresOf (List.ofFn
      (foldState (sortGates circuit) (groundState (numQubits circuit))))
    circuit_statistics := circuitStatistics circuit }

/-- Within the resource limit, the engine's simulation takes the normal
path: every gate succeeds, the final state is normalized, and the final
metrics computation cannot raise. -/
theorem simulate_with_steps_eq (self : AdvancedQuantumSimulator)
    (circuit : List Gate) (options : List (String × String))
    (h10 : numQubits circuit ≤ 10) :
    self.simulate_with_steps circuit options = normalResult circuit := by
  have hnorm : sumNS (foldState (sortGates circuit)
      (groundState (numQubits circuit))) = 1 := by
    rw [sumNS_foldState, sumNS_groundState]
  rw [AdvancedQuantumSimulator.simulate_with_steps, simulateWithStepsG]
  rw [if_neg (by have := numQubits_pos circuit; omega)]
  rw [if_neg (by omega)]
  rw [gateLoop_okApply]
  rw [advancedMetrics_eq _ hnorm]
  rw [normalResult]
  rfl

/-! ## Validity of circuits (route-level validation, quantum.py lines
244-296) and auxiliary facts for the claims -/

/-- The kinds the engine can actually apply (`_add_single_gate`). -/
def supportedKinds : List String := ["H", "X", "Y", "Z", "I"]

/-- The kinds accepted by the `/validate-circuit` route (quantum.py line
259), which also admits the CNOT token. -/
def validKinds : List String := ["H", "X", "Y", "Z", "I", "CNOT"]

/-- A circuit that passes the route validation: every kind is admitted and
every qubit index is below the 10-qubit limit (quantum.py lines 259-289). -/
def validCircuit (gates : List Gate) : Prop :=
  (∀ g ∈ gates, g.gate ∈ validKinds) ∧ ∀ g ∈ gates, g.qubit ≤ 9

instance (gates : List Gate) : Decidable (validCircuit gates) := by
  unfold validCircuit
  infer_instance

theorem foldl_max_qubit_le (gates : List Gate) :
    ∀ a : ℕ, a ≤ 9 → (∀ g ∈ gates, g.qubit ≤ 9) →
      gates.foldl (fun m g => max m g.qubit) a ≤ 9 := by
  induction gates with
  | nil => intro a ha _; exact ha
  | cons g rest ih =>
    intro a ha hg
    apply ih
    · have h1 := hg g (List.mem_cons_self g rest)
      show max a g.qubit ≤ 9
      exact max_le ha h1
    · intro g' hg'
      exact hg g' (List.mem_cons_of_mem g hg')

theorem validCircuit_numQubits_le {gates : List Gate}
    (h : validCircuit gates) : numQubits gates ≤ 10 := by
  unfold numQubits
  split
  · omega
  · have := foldl_max_qubit_le gates 0 (by omega) h.2
    omega

theorem mem_sortGates {g : Gate} {gates : List Gate} :
    g ∈ sortGates gates ↔ g ∈ gates :=
  (List.mergeSort_perm gates _).mem_iff

/-- The state snapshot at index j of the normal-path step list is the fold
of the first j sorted gates from the ground state. -/
theorem normalResult_stepState (circuit : List Gate) (j : ℕ)
    (hj : j ≤ (sortGates circuit).length) :
    (((normalResult circuit).steps)[j]?).map (fun s => s.state_vector) =
      some (List.ofFn (foldState ((sortGates circuit).take j)
        (groundState (numQubits circuit)))) := by
  cases j with
  | zero =>
    rw [normalResult]
    show ((mkStep 0 "initialization" 0 0 (groundState (numQubits circuit)) ::
      traceSteps 0 (sortGates circuit) (groundState (numQubits circuit)))[0]?).map
        (fun s => s.state_vector) = _
    rw [List.getElem?_cons_zero]
    simp [mkStep]
  | succ j' =>
    rw [normalResult]
    show ((mkStep 0 "initialization" 0 0 (groundState (numQubits circuit)) ::
      traceSteps 0 (sortGates circuit) (groundState (numQubits circuit)))[j' + 1]?).map
        (fun s => s.state_vector) = _
    rw [List.getElem?_cons_succ]
    exact traceSteps_state _ 0 j' _ (by omega)

/-- A gate kind outside the supported set leaves the catalog lookup at the
identity, so the gate is a no-op. -/
theorem applyGateData_of_unsupported {n : ℕ} (g : Gate)
    (h : g.gate ∉ supportedKinds) (ψ : QState n) : applyGateData g ψ = ψ := by
  have hm : gateMatrices g.gate = GateMat.idMat := by
    unfold gateMatrices
    have h1 : g.gate ≠ "H" := by intro hc; exact h (by rw [hc]; simp [supportedKinds])
    have h2 : g.gate ≠ "X" := by intro hc; exact h (by rw [hc]; simp [supportedKinds])
    have h3 : g.gate ≠ "Y" := by intro hc; exact h (by rw [hc]; simp [supportedKinds])
    have h4 : g.gate ≠ "Z" := by intro hc; exact h (by rw [hc]; simp [supportedKinds])
    rw [if_neg h1, if_neg h2, if_neg h3, if_neg h4]
  rw [applyGateData, hm, applyGate_idMat]

theorem foldState_of_unsupported {n : ℕ} (gates : List Gate)
    (h : ∀ g ∈ gates, g.gate ∉ supportedKinds) :
    ∀ ψ : QState n, foldState gates ψ = ψ := by
  induction gates with
  | nil => intro ψ; rfl
  | cons g rest ih =>
    intro ψ
    rw [foldState_cons, applyGateData_of_unsupported g
      (h g (List.mem_cons_self g rest)) ψ]
    exact ih (fun g' hg' => h g' (List.mem_cons_of_mem g hg')) ψ

/-- Applying the same self-inverse catalog gate twice on the same qubit in
immediate succession is the identity. -/
theorem applyGateData_twice_self_inverse {n : ℕ} (g1 g2 : Gate)
    (hk : g1.gate = g2.gate) (hq : g1.qubit = g2.qubit)
    (hmem : g1.gate ∈ (["H", "X", "Y", "Z"] : List String)) (ψ : QState n) :
    applyGateData g2 (applyGateData g1 ψ) = ψ := by
  unfold applyGateData
  rw [← hk, ← hq, applyGate_applyGate]
  have hmm : (gateMatrices g1.gate).matMul (gateMatrices g1.gate) =
      GateMat.idMat := by
    simp only [List.mem_cons, List.mem_singleton] at hmem
    rcases hmem with h | h | h | h | h
    · rw [h]
      ext <;> simp [GateMat.matMul, gateMatrices, invSqrt2, iCQ, GateMat.idMat]
        <;> norm_num
    · rw [h]
      ext <;> simp [GateMat.matMul, gateMatrices, invSqrt2, iCQ, GateMat.idMat]
        <;> norm_num
    · rw [h]
      ext <;> simp [GateMat.matMul, gateMatrices, invSqrt2, iCQ, GateMat.idMat]
        <;> norm_num
    · rw [h]
      ext <;> simp [GateMat.matMul, gateMatrices, invSqrt2, iCQ, GateMat.idMat]
        <;> norm_num
    · exact absurd h (by simp)
  rw [hmm, applyGate_idMat]

/-- Every step of the never-failing trace is normalized when the initial
state is. -/
theorem traceSteps_mem_norm {n : ℕ} (gates : List Gate) :
    ∀ (i : ℕ) (ψ : QState n), sumNS ψ = 1 →
      ∀ s ∈ traceSteps i gates ψ, ((s.state_vector.map CQ.normSqR).sum) = 1 := by
  induction gates with
  | nil => intro i ψ _ s hs; exact absurd hs (by simp [traceSteps])
  | cons g rest ih =>
    intro i ψ hψ s hs
    rw [traceSteps] at hs
    rcases List.mem_cons.mp hs with rfl | hs'
    · show ((List.ofFn (applyGateData g ψ)).map CQ.normSqR).sum = 1
      apply sum_normSqR_ofFn
      rw [sumNS_applyGateData]
      exact hψ
    · exact ih (i + 1) (applyGateData g ψ)
        (by rw [sumNS_applyGateData]; exact hψ) s hs'

@[simp] theorem CQ.normSqR_zero : CQ.normSqR 0 = 0 := by
  rw [CQ.normSqR, CQ.toC_zero]
  simp

@[simp] theorem CQ.normSqR_one : CQ.normSqR 1 = 1 := by
  rw [CQ.normSqR, CQ.toC_one]
  simp

/-- All gate kinds of the circuit are in the engine-supported set. -/
def allSupported (gates : List Gate) : Prop :=
  ∀ g ∈ gates, g.gate ∈ supportedKinds

instance (gates : List Gate) : Decidable (allSupported gates) := by
  unfold allSupported
  infer_instance

/-- No gate kind of the circuit is in the engine-supported set. -/
def allUnsupported (gates : List Gate) : Prop :=
  ∀ g ∈ gates, g.gate ∉ supportedKinds

instance (gates : List Gate) : Decidable (allUnsupported gates) := by
  unfold allUnsupported
  infer_instance

/-! ## The claims -/

/-- C9: simulation is deterministic and consults no cross-call mutable
state: two invocations of `simulate_with_steps` on equal (circuit, options)
inputs return equal results regardless of the instance's `step_history` /
`current_circuit` attributes, and the analytics metric computation is
likewise independent of the instance's `metrics_cache`. -/
theorem c9_deterministic_no_mutable_state :
    (∀ (s₁ s₂ : AdvancedQuantumSimulator) (circuit : List Gate)
        (options : List (String × String)),
      s₁.simulate_with_steps circuit options =
        s₂.simulate_with_steps circuit options)
    ∧ ∀ (a₁ a₂ : QuantumAnalytics) (amps : List CQ),
        a₁.basicParticipation amps = a₂.basicParticipation amps :=
  ⟨fun _ _ _ _ => rfl, fun _ _ _ => rfl⟩

/-- C2: when the derived qubit count exceeds the 10-qubit cap, the
simulation fails fast with the resource-limit error result (the engine's
realization of ResourceLimitExceeded), whose only state snapshot is the
1-element placeholder: the 2^n state vector is never built. -/
theorem c2_resource_limit (self : AdvancedQuantumSimulator)
    (circuit : List Gate) (options : List (String × String))
    (h : 10 < numQubits circuit) :
    self.simulate_with_steps circuit options =
      errorFallbackResult "Circuit too large for simulation (>10 qubits)"
    ∧ ∀ s ∈ (self.simulate_with_steps circuit options).steps,
        s.state_vector.length = 1 := by
  have heq : self.simulate_with_steps circuit options =
      errorFallbackResult "Circuit too large for simulation (>10 qubits)" := by
    rw [AdvancedQuantumSimulator.simulate_with_steps, simulateWithStepsG]
    rw [if_neg (by have := numQubits_pos circuit; omega), if_pos h]
  refine ⟨heq, ?_⟩
  rw [heq]
  intro s hs
  have hstep : s = errorFallbackStep := by
    simpa [errorFallbackResult] using hs
  rw [hstep]
  rfl

/-- Witness for C2 at the 11-qubit circuit [H on qubit 10]. -/
theorem c2_resource_limit_witness :
    10 < numQubits [Gate.mk "H" 10 0] ∧
      (AdvancedQuantumSimulator.simulate_with_steps ⟨none, []⟩
          [Gate.mk "H" 10 0] []) =
        errorFallbackResult "Circuit too large for simulation (>10 qubits)" :=
  ⟨by decide,
    (c2_resource_limit ⟨none, []⟩ [Gate.mk "H" 10 0] [] (by decide)).1⟩

/-- C3: for a valid circuit, every recorded step's state-vector snapshot
(including the initialization step) has basis probabilities summing to 1;
the exact model realizes the 1e-9 tolerance of the spec with zero error. -/
theorem c3_normalization (self : AdvancedQuantumSimulator)
    (circuit : List Gate) (options : List (String × String))
    (hvalid : validCircuit circuit) (s : StepRec)
    (hs : s ∈ (self.simulate_with_steps circuit options).steps) :
    (s.state_vector.map CQ.normSqR).sum = 1 := by
  rw [simulate_with_steps_eq self circuit options
    (validCircuit_numQubits_le hvalid)] at hs
  rw [normalResult] at hs
  rcases List.mem_cons.mp hs with rfl | hs'
  · show ((List.ofFn (groundState _)).map CQ.normSqR).sum = 1
    exact sum_normSqR_ofFn _ (sumNS_groundState _)
  · exact traceSteps_mem_norm _ 0 _ (sumNS_groundState _) s hs'

/-- Witness for C3 at the circuit [H on qubit 0] and its initialization
step. -/
theorem c3_normalization_witness :
    validCircuit [Gate.mk "H" 0 0] ∧
      (((mkStep 0 "initialization" 0 0
          (groundState (numQubits [Gate.mk "H" 0 0]))).state_vector.map
            CQ.normSqR).sum = 1) :=
  ⟨by decide,
    c3_normalization ⟨none, []⟩ [Gate.mk "H" 0 0] [] (by decide) _
      (by
        rw [simulate_with_steps_eq _ _ _ (by decide), normalResult]
        exact List.mem_cons_self _ _)⟩

/-- C6: in a valid circuit, applying one of the self-inverse gates H, X, Y,
Z to the same qubit twice in immediate succession (adjacent in the sorted
application order) restores the state: the snapshot recorded after the
second application equals the snapshot recorded before the first, exactly
(hence within 1e-9 in every amplitude). -/
theorem c6_self_inverse (self : AdvancedQuantumSimulator)
    (circuit : List Gate) (options : List (String × String))
    (hvalid : validCircuit circuit) (j : ℕ) (g1 g2 : Gate)
    (h1 : (sortGates circuit)[j]? = some g1)
    (h2 : (sortGates circuit)[j + 1]? = some g2)
    (hk : g1.gate = g2.gate) (hq : g1.qubit = g2.qubit)
    (hmem : g1.gate ∈ (["H", "X", "Y", "Z"] : List String)) :
    (((self.simulate_with_steps circuit options).steps)[j + 2]?).map
        (fun s => s.state_vector) =
      (((self.simulate_with_steps circuit options).steps)[j]?).map
        (fun s => s.state_vector) := by
  have hlen : j + 1 < (sortGates circuit).length := by
    rcases List.getElem?_eq_some.mp h2 with ⟨h, _⟩
    exact h
  rw [simulate_with_steps_eq self circuit options
    (validCircuit_numQubits_le hvalid)]
  rw [normalResult_stepState circuit (j + 2) (by omega),
    normalResult_stepState circuit j (by omega)]
  have ht2 : (sortGates circuit).take (j + 2) =
      ((sortGates circuit).take j ++ [g1]) ++ [g2] := by
    rw [List.take_succ, h2, List.take_succ, h1]
    rfl
  have hfold : foldState ((sortGates circuit).take (j + 2))
      (groundState (numQubits circuit)) =
        foldState ((sortGates circuit).take j)
          (groundState (numQubits circuit)) := by
    rw [ht2, foldState_append, foldState_append]
    show applyGateData g2 (applyGateData g1 _) = _
    rw [applyGateData_twice_self_inverse g1 g2 hk hq hmem]
  rw [hfold]

/-- A gate list already in position order is fixed by the stable sort. -/
theorem sortGates_eq_self {gates : List Gate}
    (h : List.Pairwise (fun g1 g2 => g1.position ≤ g2.position) gates) :
    sortGates gates = gates := by
  apply List.mergeSort_of_sorted
  exact h.imp (fun hab => by simpa using hab)

/-- Witness for C6 at the circuit [H at position 0, H at position 1] on
qubit 0. -/
theorem c6_self_inverse_witness :
    validCircuit [Gate.mk "H" 0 0, Gate.mk "H" 0 1] ∧
      ((((AdvancedQuantumSimulator.simulate_with_steps ⟨none, []⟩
            [Gate.mk "H" 0 0, Gate.mk "H" 0 1] []).steps)[2]?).map
          (fun s => s.state_vector) =
        (((AdvancedQuantumSimulator.simulate_with_steps ⟨none, []⟩
            [Gate.mk "H" 0 0, Gate.mk "H" 0 1] []).steps)[0]?).map
          (fun s => s.state_vector)) :=
  ⟨by decide,
    c6_self_inverse ⟨none, []⟩ [Gate.mk "H" 0 0, Gate.mk "H" 0 1] []
      (by decide) 0 (Gate.mk "H" 0 0) (Gate.mk "H" 0 1)
      (by rw [sortGates_eq_self (by decide)]; rfl)
      (by rw [sortGates_eq_self (by decide)]; rfl)
      rfl rfl (by decide)⟩

/-- C4: for a valid circuit built only from supported single-qubit gates,
every reachable state (the fold of any prefix of the sorted gate sequence
from the ground state) has exactly zero per-qubit and per-pair subsystem
(entanglement) entropy, and the reported entanglement measure of the final
state is exactly zero. -/
theorem c4_separability (self : AdvancedQuantumSimulator)
    (circuit : List Gate) (options : List (String × String))
    (hvalid : validCircuit circuit) (hsup : allSupported circuit) :
    (∀ k q : ℕ, q < numQubits circuit →
      eigEntropy (matC (rhoQubit (foldState ((sortGates circuit).take k)
        (groundState (numQubits circuit))) q)) = 0)
    ∧ (∀ k q1 q2 : ℕ, q1 < numQubits circuit → q2 < numQubits circuit →
        q1 ≠ q2 →
      eigEntropy (matC (rhoPair (foldState ((sortGates circuit).take k)
        (groundState (numQubits circuit))) q1 q2)) = 0)
    ∧ (self.simulate_with_steps circuit options).final_metrics.entanglement = 0
    ∧ (self.simulate_with_steps circuit options).entanglement_measure = 0 := by
  have hsep : ∀ gs : List Gate,
      Separable (foldState gs (groundState (numQubits circuit))) :=
    fun gs => separable_foldState gs _ (groundState_separable _)
  have hnorm : ∀ gs : List Gate,
      sumNS (foldState gs (groundState (numQubits circuit))) = 1 := by
    intro gs
    rw [sumNS_foldState, sumNS_groundState]
  refine ⟨?_, ?_, ?_, ?_⟩
  · intro k q hq
    exact eigEntropy_rhoQubit_zero _ q hq (hsep _) (hnorm _)
  · intro k q1 q2 hq1 hq2 hne
    exact eigEntropy_rhoPair_zero _ q1 q2 hq1 hq2 hne (hsep _) (hnorm _)
  · rw [simulate_with_steps_eq self circuit options
      (validCircuit_numQubits_le hvalid)]
    exact calculateEntanglement_zero _ (hsep _) (hnorm _)
  · rw [simulate_with_steps_eq self circuit options
      (validCircuit_numQubits_le hvalid)]
    exact calculateEntanglement_zero _ (hsep _) (hnorm _)

/-- Witness for C4 at the 2-qubit circuit [H on qubit 0, X on qubit 1]. -/
theorem c4_separability_witness :
    validCircuit [Gate.mk "H" 0 0, Gate.mk "X" 1 1] ∧
      allSupported [Gate.mk "H" 0 0, Gate.mk "X" 1 1] ∧
      (AdvancedQuantumSimulator.simulate_with_steps ⟨none, []⟩
        [Gate.mk "H" 0 0, Gate.mk "X" 1 1] []).final_metrics.entanglement = 0 :=
  ⟨by decide, by decide,
    (c4_separability ⟨none, []⟩ [Gate.mk "H" 0 0, Gate.mk "X" 1 1] []
      (by decide) (by decide)).2.2.1⟩

/-- C1 counterexample: a circuit containing the unsupported CNOT token does
NOT fail: `simulate_with_steps` reports no error and the CNOT step leaves
the state at the ground state (`_add_single_gate` logs a warning and adds
no operation). -/
theorem c1_counterexample :
    (AdvancedQuantumSimulator.simulate_with_steps ⟨none, []⟩
        [Gate.mk "CNOT" 0 0] []).final_metrics.error = none
    ∧ (((AdvancedQuantumSimulator.simulate_with_steps ⟨none, []⟩
        [Gate.mk "CNOT" 0 0] []).steps)[1]?).map (fun s => s.state_vector) =
      some (List.ofFn (groundState (numQubits [Gate.mk "CNOT" 0 0]))) := by
  have h10 : numQubits [Gate.mk "CNOT" 0 0] ≤ 10 := by decide
  have hsort : sortGates [Gate.mk "CNOT" 0 0] = [Gate.mk "CNOT" 0 0] :=
    sortGates_eq_self (by decide)
  constructor
  · rw [simulate_with_steps_eq _ _ _ h10]
    rfl
  · rw [simulate_with_steps_eq _ _ _ h10]
    rw [normalResult_stepState _ 1 (by rw [hsort]; decide)]
    have hfold : foldState ((sortGates [Gate.mk "CNOT" 0 0]).take 1)
        (groundState (numQubits [Gate.mk "CNOT" 0 0])) =
          groundState (numQubits [Gate.mk "CNOT" 0 0]) := by
      apply foldState_of_unsupported
      intro g hg
      rw [hsort] at hg
      have : g = Gate.mk "CNOT" 0 0 := by simpa using List.mem_of_mem_take hg
      rw [this]
      decide
    rw [hfold]

/-- C1 amended: for every circuit containing a gate whose kind is outside
the supported set, simulation does NOT fail with MalformedCircuit: it
succeeds with no error reported, and every gate of unsupported kind in the
sorted application order is a no-op — the recorded snapshot after it equals
the recorded snapshot before it. -/
theorem c1_unsupported_silent_noop (self : AdvancedQuantumSimulator)
    (circuit : List Gate) (options : List (String × String))
    (g : Gate) (hg : g ∈ circuit) (hunsup : g.gate ∉ supportedKinds)
    (hn : numQubits circuit ≤ 10) :
    (self.simulate_with_steps circuit options).final_metrics.error = none
    ∧ ∀ (j : ℕ) (g2 : Gate), (sortGates circuit)[j]? = some g2 →
        g2.gate ∉ supportedKinds →
        (((self.simulate_with_steps circuit options).steps)[j + 1]?).map
            (fun s => s.state_vector) =
          (((self.simulate_with_steps circuit options).steps)[j]?).map
            (fun s => s.state_vector) := by
  constructor
  · rw [simulate_with_steps_eq _ _ _ hn]
    rfl
  · intro j g2 hget hg2
    have hjlt : j < (sortGates circuit).length :=
      (List.getElem?_eq_some.mp hget).1
    rw [simulate_with_steps_eq _ _ _ hn,
      normalResult_stepState _ (j + 1) hjlt,
      normalResult_stepState _ j (Nat.le_of_lt hjlt)]
    have htake : (sortGates circuit).take (j + 1) =
        (sortGates circuit).take j ++ [g2] := by
      rw [List.take_succ, hget]
      rfl
    rw [htake, foldState_append, foldState_cons, foldState_nil,
      applyGateData_of_unsupported g2 hg2]

/-- Witness for the amended C1 at the mixed circuit [H q0, CNOT]: the
unsupported CNOT leaves the snapshot unchanged and no error is reported. -/
theorem c1_unsupported_silent_noop_witness :
    ((Gate.mk "CNOT" 0 1) ∈ [Gate.mk "H" 0 0, Gate.mk "CNOT" 0 1] ∧
      (Gate.mk "CNOT" 0 1).gate ∉ supportedKinds ∧
      numQubits [Gate.mk "H" 0 0, Gate.mk "CNOT" 0 1] ≤ 10) ∧
    (AdvancedQuantumSimulator.simulate_with_steps ⟨none, []⟩
        [Gate.mk "H" 0 0, Gate.mk "CNOT" 0 1] []).final_metrics.error = none
    ∧ (((AdvancedQuantumSimulator.simulate_with_steps ⟨none, []⟩
        [Gate.mk "H" 0 0, Gate.mk "CNOT" 0 1] []).steps)[2]?).map
          (fun s => s.state_vector) =
        (((AdvancedQuantumSimulator.simulate_with_steps ⟨none, []⟩
          [Gate.mk "H" 0 0, Gate.mk "CNOT" 0 1] []).steps)[1]?).map
          (fun s => s.state_vector) := by
  have h := c1_unsupported_silent_noop ⟨none, []⟩
    [Gate.mk "H" 0 0, Gate.mk "CNOT" 0 1] [] (Gate.mk "CNOT" 0 1)
    (by decide) (by decide) (by decide)
  exact ⟨⟨by decide, by decide, by decide⟩, h.1,
    h.2 1 (Gate.mk "CNOT" 0 1)
      (by rw [sortGates_eq_self (by decide)]; decide) (by decide)⟩

/-- C5 counterexample: at the simulated 1-qubit ground state [1, 0], the
simulator's reported relative-entropy coherence (the distribution entropy
itself, about 0) differs from log2(N) minus the distribution entropy
(about 1). -/
theorem c5_counterexample :
    ¬ (relEntropyCoherenceSim [(1 : CQ), 0] =
        Real.logb 2 ((([(1 : CQ), 0] : List CQ).length : ℝ)) -
          distributionEntropy (probsR [(1 : CQ), 0])) := by
  intro hc
  have hp : probsR [(1 : CQ), 0] = [1, 0] := by simp [probsR]
  rw [relEntropyCoherenceSim, hp] at hc
  have hlen : ((([(1 : CQ), 0] : List CQ).length : ℝ)) = 2 := by norm_num
  rw [hlen] at hc
  have hd : distributionEntropy [(1 : ℝ), 0] = -(Real.logb 2 (1 + 1e-16)) := by
    rw [distributionEntropy, List.map_cons, List.map_cons, List.map_nil,
      List.sum_cons, List.sum_cons, List.sum_nil]
    rw [if_pos (by norm_num), if_neg (by norm_num)]
    ring
  rw [hd] at hc
  have h2 : Real.logb 2 2 = 1 := Real.logb_self_eq_one (by norm_num)
  rw [h2] at hc
  have hL : 0 < Real.logb 2 (1 + 1e-16) :=
    Real.logb_pos (by norm_num) (by norm_num)
  linarith

/-- C5 amended: the analytics coherence output equals log2(N) minus the
distribution entropy, while the simulator's coherence output is the
distribution entropy itself. -/
theorem c5_coherence_formulas (amps : List CQ) :
    relEntropyCoherenceAna amps =
      Real.logb 2 ((amps.length : ℝ)) - distributionEntropy (probsR amps)
    ∧ relEntropyCoherenceSim amps = distributionEntropy (probsR amps) :=
  ⟨rfl, rfl⟩

/-- C8 counterexample: the simulator's participation metric
(`_calculate_advanced_metrics` line 450) is unguarded and divides by zero
on the degenerate all-zero vector, raising ZeroDivisionError rather than
returning 1; it is not total. -/
theorem c8_counterexample :
    participationMetricSim [(0 : CQ), 0] =
      Except.error "float division by zero" := by
  rw [participationMetricSim, pydiv, if_pos (by simp [probsR])]

/-- C8 amended: the analytics participation metric is guarded and total
(1 / sum of squared normalized probabilities above the 1e-16 threshold, 1
otherwise, with the handler default 1 on an empty list), while the
simulator's version performs the unguarded division, which succeeds exactly
when the squared-probability sum is nonzero. -/
theorem c8_participation (amps : List CQ) :
    (amps ≠ [] →
      1e-16 < ((normalizedProbs amps).map (fun p => p ^ 2)).sum →
      participationMetricAna amps =
        1 / ((normalizedProbs amps).map (fun p => p ^ 2)).sum)
    ∧ (amps ≠ [] →
        ¬ 1e-16 < ((normalizedProbs amps).map (fun p => p ^ 2)).sum →
        participationMetricAna amps = 1)
    ∧ (amps = [] → participationMetricAna amps = 1)
    ∧ (((probsR amps).map (fun p => p ^ 2)).sum ≠ 0 →
        participationMetricSim amps =
          Except.ok (1 / ((probsR amps).map (fun p => p ^ 2)).sum)) := by
  refine ⟨?_, ?_, ?_, ?_⟩
  · intro hne hgt
    rw [participationMetricAna, if_neg (by simp [hne]), if_pos hgt]
  · intro hne hle
    rw [participationMetricAna, if_neg (by simp [hne]), if_neg hle]
  · intro he
    rw [participationMetricAna, if_pos (by simp [he])]
  · intro hne
    rw [participationMetricSim, pydiv, if_neg hne]

/-- Witness for the amended C8 at the state vector [1, 0]. -/
theorem c8_participation_witness :
    participationMetricAna [(1 : CQ), 0] = 1 ∧
      participationMetricSim [(1 : CQ), 0] = Except.ok 1 := by
  have hp : probsR [(1 : CQ), 0] = [1, 0] := by simp [probsR]
  have hsum : ((probsR [(1 : CQ), 0]).map (fun p => p ^ 2)).sum = 1 := by
    rw [hp]
    norm_num
  have hn : normalizedProbs [(1 : CQ), 0] = [1, 0] := by
    rw [normalizedProbs, hp]
    rw [if_pos (by norm_num)]
    norm_num
  have hns : ((normalizedProbs [(1 : CQ), 0]).map (fun p => p ^ 2)).sum = 1 := by
    rw [hn]
    norm_num
  constructor
  · have h := (c8_participation [(1 : CQ), 0]).1 (by simp)
      (by rw [hns]; norm_num)
    rw [h, hns]
    norm_num
  · have h := (c8_participation [(1 : CQ), 0]).2.2.2 (by rw [hsum]; norm_num)
    rw [h, hsum]
    norm_num

/-- The step accumulator only grows: whatever the gate applier does, the
loop's output extends the incoming step list. -/
theorem gateLoop_steps_prefix {n : ℕ}
    (f : Gate → QState n → Except String (QState n)) (gates : List Gate) :
    ∀ (i : ℕ) (ψ : QState n) (acc : List StepRec),
      ∃ l, (gateLoop f i gates ψ acc).1 = acc ++ l := by
  induction gates with
  | nil =>
    intro i ψ acc
    exact ⟨[], by simp [gateLoop]⟩
  | cons g rest ih =>
    intro i ψ acc
    rw [gateLoop]
    cases hf : f g ψ with
    | ok ψ' =>
      obtain ⟨l, hl⟩ := ih (i + 1) ψ'
        (acc ++ [mkStep (i + 1) g.gate g.qubit g.position ψ'])
      exact ⟨[mkStep (i + 1) g.gate g.qubit g.position ψ'] ++ l,
        by rw [hl, List.append_assoc]⟩
    | error e =>
      exact ih (i + 1) ψ acc

/-- C10: the simulation never propagates an exception.  A gate whose
application raises is skipped (no step emitted, state unchanged, index
still advanced) and the loop continues with the remaining gates; a
successful gate appends exactly its step; any exception escaping the body
is converted into the fallback result, whose single recorded step is the
ground state placeholder with purity 1.0 and the error message attached;
and every invocation of the (generic) simulation returns a result with at
least one step. -/
theorem c10_no_exception_propagation :
    (∀ (n : ℕ) (f : Gate → QState n → Except String (QState n)) (i : ℕ)
        (g : Gate) (gates : List Gate) (ψ : QState n) (acc : List StepRec)
        (msg : String), f g ψ = Except.error msg →
      gateLoop f i (g :: gates) ψ acc = gateLoop f (i + 1) gates ψ acc)
    ∧ (∀ (n : ℕ) (f : Gate → QState n → Except String (QState n)) (i : ℕ)
        (g : Gate) (gates : List Gate) (ψ ψ' : QState n)
        (acc : List StepRec), f g ψ = Except.ok ψ' →
      gateLoop f i (g :: gates) ψ acc =
        gateLoop f (i + 1) gates ψ'
          (acc ++ [mkStep (i + 1) g.gate g.qubit g.position ψ']))
    ∧ (∀ msg : String, (errorFallbackResult msg).steps = [errorFallbackStep]
        ∧ errorFallbackStep.state_vector = [1]
        ∧ (errorFallbackResult msg).final_metrics.purity = 1
        ∧ (errorFallbackResult msg).final_metrics.error = some msg)
    ∧ ∀ (f : (n : ℕ) → Gate → QState n → Except String (QState n))
        (circuit : List Gate),
        (simulateWithStepsG f circuit).steps ≠ [] := by
  refine ⟨?_, ?_, ?_, ?_⟩
  · intro n f i g gates ψ acc msg h
    rw [gateLoop, h]
  · intro n f i g gates ψ ψ' acc h
    rw [gateLoop, h]
  · intro msg
    exact ⟨rfl, rfl, rfl, rfl⟩
  · intro f circuit
    rw [simulateWithStepsG]
    by_cases h0 : numQubits circuit = 0
    · rw [if_pos h0]
      simp [emptyCircuitResult]
    · rw [if_neg h0]
      by_cases h10 : 10 < numQubits circuit
      · rw [if_pos h10]
        simp [errorFallbackResult]
      · rw [if_neg h10]
        cases hm : advancedMetrics (numQubits circuit)
            (gateLoop (f (numQubits circuit)) 0 (sortGates circuit)
              (groundState (numQubits circuit))
              [mkStep 0 "initialization" 0 0
                (groundState (numQubits circuit))]).2 with
        | error e =>
          simp [errorFallbackResult]
        | ok fm =>
          show (gateLoop (f (numQubits circuit)) 0 (sortGates circuit)
            (groundState (numQubits circuit))
            [mkStep 0 "initialization" 0 0
              (groundState (numQubits circuit))]).1 ≠ []
          obtain ⟨l, hl⟩ := gateLoop_steps_prefix (f (numQubits circuit))
            (sortGates circuit) 0 (groundState (numQubits circuit))
            [mkStep 0 "initialization" 0 0 (groundState (numQubits circuit))]
          rw [hl]
          simp

/-- Witness for C10: a gate applier that always raises skips its gate, and
the engine's simulation of [H at qubit 0] has a nonempty step list. -/
theorem c10_no_exception_propagation_witness :
    @gateLoop 1 (fun _ _ => Except.error "boom") 0 [Gate.mk "H" 0 0]
        (groundState 1) [] =
      @gateLoop 1 (fun _ _ => Except.error "boom") 1 [] (groundState 1) []
    ∧ (simulateWithStepsG okApply [Gate.mk "H" 0 0]).steps ≠ [] :=
  ⟨c10_no_exception_propagation.1 1 (fun _ _ => Except.error "boom") 0
      (Gate.mk "H" 0 0) [] (groundState 1) [] "boom" rfl,
    c10_no_exception_propagation.2.2.2 okApply [Gate.mk "H" 0 0]⟩

/-- C7: simulating the single-gate circuit [H on qubit 0] of a 1-qubit
system yields final measurement probabilities [0.5, 0.5] and Bloch vector
(1, 0, 0) for qubit 0, exactly (hence within 1e-9). -/
theorem c7_hadamard_example :
    ((((AdvancedQuantumSimulator.simulate_with_steps ⟨none, []⟩
          [Gate.mk "H" 0 0] []).steps)[1]?).map
        (fun s => s.measurement_probabilities.map (fun p => (CQ.toC p).re)) =
      some [(0.5 : ℝ), 0.5])
    ∧ ((((AdvancedQuantumSimulator.simulate_with_steps ⟨none, []⟩
          [Gate.mk "H" 0 0] []).steps)[1]?).map
        (fun s => s.bloch_vectors.map (fun v =>
          ((CQ.toC v.1).re, (CQ.toC v.2.1).re, (CQ.toC v.2.2).re))) =
      some [((1 : ℝ), (0 : ℝ), (0 : ℝ))]) := by
  have hsort : sortGates [Gate.mk "H" 0 0] = [Gate.mk "H" 0 0] :=
    sortGates_eq_self (by decide)
  have h01 : (0 : ℕ) < numQubits [Gate.mk "H" 0 0] := by decide
  have hψ : applyGateData (Gate.mk "H" 0 0)
      (groundState (numQubits [Gate.mk "H" 0 0])) = (fun _ => invSqrt2) := by
    funext i
    rw [applyGateData]
    have hm : gateMatrices "H" =
        GateMat.mk invSqrt2 invSqrt2 invSqrt2 (-invSqrt2) := rfl
    rw [hm, applyGate, if_pos h01]
    have h20 : (2 : ℕ) ^ (0 : ℕ) = 1 := rfl
    fin_cases i
    · show (if (Nat.testBit 0 0) then _ else _) = invSqrt2
      rw [if_neg (by simp [Nat.zero_testBit])]
      show invSqrt2 * groundState _ ⟨0, _⟩ +
        invSqrt2 * groundState _ (flipIdx 0 ⟨0, _⟩) = invSqrt2
      rw [flipIdx, dif_pos h01]
      show invSqrt2 * (if (0 : ℕ) = 0 then 1 else 0) +
        invSqrt2 * (if (0 ^^^ 2 ^ 0 : ℕ) = 0 then 1 else 0) = invSqrt2
      rw [if_pos rfl, if_neg (by decide)]
      ring
    · show (if (Nat.testBit 1 0) then _ else _) = invSqrt2
      rw [if_pos (by decide)]
      show invSqrt2 * groundState _ (flipIdx 0 ⟨1, _⟩) +
        (-invSqrt2) * groundState _ ⟨1, _⟩ = invSqrt2
      rw [flipIdx, dif_pos h01]
      show invSqrt2 * (if (1 ^^^ 2 ^ 0 : ℕ) = 0 then 1 else 0) +
        (-invSqrt2) * (if (1 : ℕ) = 0 then 1 else 0) = invSqrt2
      rw [if_pos (by decide), if_neg (by decide)]
      ring
  have hhalf : invSqrt2 * CQ.conj invSqrt2 = CQ.mk (1/2) 0 0 0 := by
    ext <;> simp [invSqrt2, CQ.conj] <;> norm_num
  have hstep : (((AdvancedQuantumSimulator.simulate_with_steps ⟨none, []⟩
      [Gate.mk "H" 0 0] []).steps)[1]?) =
        some (@mkStep (numQubits [Gate.mk "H" 0 0]) 1 "H" 0 0
          (fun _ => invSqrt2)) := by
    rw [simulate_with_steps_eq _ _ _ (by decide), normalResult, hsort]
    rw [List.getElem?_cons_succ]
    rw [traceSteps]
    show (mkStep 1 "H" 0 0 (applyGateData (Gate.mk "H" 0 0)
      (groundState (numQubits [Gate.mk "H" 0 0]))) :: traceSteps 1 []
        (applyGateData (Gate.mk "H" 0 0)
          (groundState (numQubits [Gate.mk "H" 0 0]))))[0]? = _
    rw [List.getElem?_cons_zero, hψ]
  have hF : Finset.univ.filter
      (fun i : Fin (2 ^ numQubits [Gate.mk "H" 0 0]) =>
        i.val.testBit 0 = false) = {⟨0, by decide⟩} := by
    decide
  have hrho : ∀ s t : Bool,
      rhoQubit (fun _ => invSqrt2 : QState (numQubits [Gate.mk "H" 0 0]))
        0 s t = invSqrt2 * CQ.conj invSqrt2 := by
    intro s t
    show (∑ i ∈ Finset.univ.filter
        (fun i : Fin (2 ^ numQubits [Gate.mk "H" 0 0]) =>
          i.val.testBit 0 = false),
      invSqrt2 * CQ.conj invSqrt2) = _
    rw [hF, Finset.sum_singleton]
  constructor
  · rw [hstep]
    show some ((List.ofFn (fun _ : Fin (2 ^ numQubits [Gate.mk "H" 0 0]) =>
      invSqrt2 * CQ.conj invSqrt2)).map (fun p => (CQ.toC p).re)) = _
    rw [List.ofFn_const, hhalf]
    show some ((List.replicate 2 (CQ.mk (1/2) 0 0 0)).map
      (fun p => (CQ.toC p).re)) = _
    rw [List.map_replicate]
    show some [(CQ.toC (CQ.mk (1/2) 0 0 0)).re,
      (CQ.toC (CQ.mk (1/2) 0 0 0)).re] = _
    have : (CQ.toC (CQ.mk (1/2) 0 0 0)).re = 0.5 := by
      rw [CQ.toC_re]
      norm_num
    rw [this]
  · rw [hstep]
    show some ((List.ofFn (fun q : Fin (numQubits [Gate.mk "H" 0 0]) =>
      blochOfQubit (fun _ => invSqrt2) q.val)).map (fun v =>
        ((CQ.toC v.1).re, (CQ.toC v.2.1).re, (CQ.toC v.2.2).re))) = _
    show some ([blochOfQubit
      (fun _ => invSqrt2 : QState (numQubits [Gate.mk "H" 0 0])) 0].map
        (fun v => ((CQ.toC v.1).re, (CQ.toC v.2.1).re, (CQ.toC v.2.2).re))) = _
    rw [blochOfQubit, hrho, hrho, hrho, hrho]
    rw [List.map_singleton]
    have hx : (CQ.toC (invSqrt2 * CQ.conj invSqrt2 +
        invSqrt2 * CQ.conj invSqrt2)).re = 1 := by
      rw [hhalf]
      show (CQ.toC (CQ.mk (1/2) 0 0 0 + CQ.mk (1/2) 0 0 0)).re = 1
      rw [CQ.toC_re]
      norm_num
    have hy : (CQ.toC (iCQ * (invSqrt2 * CQ.conj invSqrt2 -
        invSqrt2 * CQ.conj invSqrt2))).re = 0 := by
      rw [sub_self, mul_zero, CQ.toC_zero]
      rfl
    have hz : (CQ.toC (invSqrt2 * CQ.conj invSqrt2 -
        invSqrt2 * CQ.conj invSqrt2)).re = 0 := by
      rw [sub_self, CQ.toC_zero]
      rfl
    rw [hx, hy, hz]
